import Mathlib

/-!
# Verification of the three-csg interface converters

A shallow embedding of `src/utils/interface.js` (the export transform
`exportThreeGeometry`, the ingestion `importThreeGeometry`, and the
operation dispatch `runOperation` / `prepareObjects`), with theorems
checking the natural-language specification against it.

Modelling conventions:
* JavaScript numbers are modelled as exact rationals (`ℚ`).  The export
  algorithm only compares, rounds, adds and copies coordinates, so the
  algorithmic content is unchanged by this idealisation.
* `Number.prototype.toFixed(4)` renders `x` as an optional minus sign
  (present iff `x < 0`) followed by the decimal digits of the integer
  nearest to `|x|·10⁴` (ties towards the larger integer).  Decimal digit
  strings are in bijection with that integer, so the rendered string is
  modelled as the pair `(x < 0, round(|x|·10⁴))`; string equality of the
  `"x_y_z"` hash (the `"_"` separator never occurs inside a component)
  is exactly componentwise equality of the three pairs.
* `THREE.Vector3.angleTo(v) <= smoothingAngle` is a pure binary test on
  the two normals; floating-point `acos` is not exactly embeddable, so
  the export is parameterised by that test `ok : Vec3 → Vec3 → Bool`
  (in the source it is `fun a b => a.angleTo(b) <= smoothingAngle`,
  default angle 40°·π/180).  Likewise `THREE.Vector3.normalize` (division
  by the Euclidean length, irrational over `ℚ`) is a parameter
  `nz : Vec3 → Vec3`.  No theorem below depends on a particular choice.
* The triangle index records are created as placeholder triples and
  backfilled; the placeholder is modelled as `none` so that the
  population postcondition is expressible.
* `exportThreeGeometry`'s line-35 guard returns non-CSG inputs
  unchanged (`CSG` there resolves to the globally installed class, as
  `window.getTag` does in the vertex module); every claim concerns CSG
  mesh inputs, for which the guard passes, so the embedding takes a
  `CSG` directly.
-/

namespace ThreeCSG

/-- A 3-component vector (position or normal), exact coordinates. -/
structure Vec3 where
  x : ℚ
  y : ℚ
  z : ℚ
deriving DecidableEq, Repr

/-- Componentwise sum, as produced by `THREE.Vector3.add`. -/
def Vec3.add (a b : Vec3) : Vec3 := ⟨a.x + b.x, a.y + b.y, a.z + b.z⟩

/-- An r,g,b colour triple (the data held by a `THREE.Color`). -/
structure Color3 where
  r : ℚ
  g : ℚ
  b : ℚ
deriving DecidableEq, Repr

/-- A 4-component colour as stored in `polygon.shared.color`
(`exportThreeGeometry` reads components 0,1,2 only). -/
structure Color4 where
  r : ℚ
  g : ℚ
  b : ℚ
  a : ℚ
deriving DecidableEq, Repr

/-- The `shared` record of a polygon; `color` is optional. -/
structure Shared where
  color : Option Color4
deriving DecidableEq, Repr

/-- `Vertex` from `src/math` (src/unnamed/part_000): a single `pos` field. -/
structure Vertex where
  pos : Vec3
deriving DecidableEq, Repr

/-- The plane of a polygon; `exportThreeGeometry` only reads its `normal`. -/
structure Plane where
  normal : Vec3
deriving DecidableEq, Repr

/-- A polygon: ordered vertices, a plane (with its normal) and the
`shared` record.  The plane computation itself lives in `src/math` and is
not read by the converters beyond `plane.normal`. -/
structure Polygon where
  vertices : List Vertex
  plane : Plane
  shared : Shared
deriving DecidableEq, Repr

/-- A CSG mesh: an ordered list of polygons (field `polygons`). -/
structure CSG where
  polygons : List Polygon
deriving DecidableEq, Repr

/-! ## The weld key: `toFixed(4)` on each coordinate -/

/-- Model of `q.toFixed(4)`: the sign part (ECMAScript emits `"-"` iff
`q < 0`, then renders `|q|`) and the rounded scaled magnitude whose
decimal digits form the rest of the string.  `toFixed` picks the `n`
with `n/10⁴` closest to `|q|`, ties towards the larger `n`, i.e.
`⌊|q|·10⁴ + 1/2⌋`; it is written here on `num`/`den` directly so the
kernel can evaluate it, and `toFixed4_spec` proves the floor form. -/
def toFixed4 (q : ℚ) : Bool × ℕ :=
  (decide (q.num < 0), (2 * q.num.natAbs * 10000 + q.den) / (2 * q.den))

/-- The bucket hash `x.toFixed(4) + "_" + y.toFixed(4) + "_" + z.toFixed(4)`,
as the triple of rendered components (string equality of the hash is
componentwise equality; `"_"` never occurs inside a component). -/
def weldKey (v : Vec3) : (Bool × ℕ) × (Bool × ℕ) × (Bool × ℕ) :=
  (toFixed4 v.x, toFixed4 v.y, toFixed4 v.z)

/-- Keys of the vertex map. -/
abbrev WeldKey := (Bool × ℕ) × (Bool × ℕ) × (Bool × ℕ)

/-! ## Step 1: triangulation (the polygon fan loop, lines 48–78) -/

/-- One emitted triangle: the three corner positions, the polygon's plane
normal (`normalVec`) and the polygon's colour (`threeColor`). -/
structure Triangle where
  a : Vec3
  b : Vec3
  c : Vec3
  normal : Vec3
  colour : Color3
deriving DecidableEq, Repr

/-- The colour used for every corner of a polygon: `shared.color`
components 0–2 when present, else the neutral `[1, 1, 1]`. -/
def polyColour (p : Polygon) : Color3 :=
  match p.shared.color with
  | some c => ⟨c.r, c.g, c.b⟩
  | none => ⟨1, 1, 1⟩

/-- Default vertex used for (never-taken) out-of-range list reads. -/
def dV : Vertex := ⟨⟨0, 0, 0⟩⟩

/-- The fan loop `for (x = 0; x < n - 2; x++)` of one polygon: triangle
`x` uses corners `0, x+1, x+2` and inherits the plane normal and colour. -/
def polyTriangles (p : Polygon) : List Triangle :=
  (List.range (p.vertices.length - 2)).map fun x =>
    ⟨(p.vertices.getD 0 dV).pos, (p.vertices.getD (x + 1) dV).pos,
      (p.vertices.getD (x + 2) dV).pos, p.plane.normal, polyColour p⟩

/-- All triangles of the mesh, in polygon order (the `faces` array:
face ordinal = position in this list). -/
def triangles (g : CSG) : List Triangle := g.polygons.flatMap polyTriangles

/-- One corner instance pushed into the vertex map: its position, the
triangle's normal and colour, and the back-reference `(face, idx)` into
that triangle's 3-entry index record. -/
structure Corner where
  pos : Vec3
  normal : Vec3
  colour : Color3
  face : ℕ
  idx : ℕ
deriving DecidableEq, Repr

/-- Default corner for (never-taken) out-of-range list reads. -/
def dC : Corner := ⟨⟨0, 0, 0⟩, ⟨0, 0, 0⟩, ⟨1, 1, 1⟩, 0, 0⟩

/-- Default triangle for (never-taken) out-of-range list reads. -/
def dT : Triangle := ⟨⟨0, 0, 0⟩, ⟨0, 0, 0⟩, ⟨0, 0, 0⟩, ⟨0, 0, 0⟩, ⟨1, 1, 1⟩⟩

/-- The corner position of a triangle selected by the slot index
`0, 1, 2`. -/
def triPos (t : Triangle) : ℕ → Vec3
  | 0 => t.a
  | 1 => t.b
  | _ => t.c

/-- The `[0, x+1, x+2].forEach((vertIdx, idx) => …)` body: the three
corner instances of face `f`. -/
def triCorners (f : ℕ) (t : Triangle) : List Corner :=
  [⟨t.a, t.normal, t.colour, f, 0⟩, ⟨t.b, t.normal, t.colour, f, 1⟩,
    ⟨t.c, t.normal, t.colour, f, 2⟩]

/-- All corner instances of the mesh in traversal order (polygons in
order, fan triangles in order, corners 0,1,2 of each). -/
def corners (g : CSG) : List Corner :=
  (triangles g).enum.flatMap fun ft => triCorners ft.1 ft.2

/-! ## Step 2: the vertex map (insertion-ordered buckets, lines 63–76) -/

/-- One `vertexMap[hash]` record: the first inserted vertex (line 74
stores the representative `vertex`), and the parallel `normals`,
`colours`, `faces` arrays, here fused into one entry list in push order. -/
structure Bucket where
  key : WeldKey
  vertex : Vec3
  entries : List Corner
deriving DecidableEq, Repr

/-- Insert one corner: append to the existing bucket for its hash, or
append a fresh bucket at the end (JS plain objects preserve insertion
order for these non-index string keys). -/
def insertCorner (m : List Bucket) (c : Corner) : List Bucket :=
  match m with
  | [] => [⟨weldKey c.pos, c.pos, [c]⟩]
  | b :: bs =>
      if b.key = weldKey c.pos then
        { b with entries := b.entries ++ [c] } :: bs
      else
        b :: insertCorner bs c

/-- The whole vertex map after the triangulation pass. -/
def buildMap (l : List Corner) : List Bucket := l.foldl insertCorner []

/-! ## Step 3: greedy smoothing groups (lines 84–105) -/

/-- The inner scan `for (j = i; j < normals.length; j++)`: collect the
still-ungrouped indices whose normal passes the seed test `ok iNorm ·`,
clearing their flags.  The structural `fuel` argument counts the
remaining iterations: it is always called with `fuel = ns.length - j`,
so `fuel = 0` is exactly the loop exit `j ≥ ns.length`. -/
def scanJ (ok : Vec3 → Vec3 → Bool) (ns : List Vec3) (iNorm : Vec3) :
    ℕ → ℕ → List Bool → List ℕ × List Bool
  | 0, _, ung => ([], ung)
  | fuel + 1, j, ung =>
    if ung.getD j false && ok iNorm (ns.getD j ⟨0, 0, 0⟩) then
      let r := scanJ ok ns iNorm fuel (j + 1) (ung.set j false)
      (j :: r.1, r.2)
    else
      scanJ ok ns iNorm fuel (j + 1) ung

/-- The outer loop `for (i = 0; i < normals.length; i++)`: each still
ungrouped `i` seeds a new group `[i] ++ admitted`.  As in `scanJ`,
`fuel = ns.length - i` counts the remaining iterations. -/
def groupLoop (ok : Vec3 → Vec3 → Bool) (ns : List Vec3) :
    ℕ → ℕ → List Bool → List (List ℕ)
  | 0, _, _ => []
  | fuel + 1, i, ung =>
    if ung.getD i false then
      let r := scanJ ok ns (ns.getD i ⟨0, 0, 0⟩) (ns.length - i) i
        (ung.set i false)
      (i :: r.1) :: groupLoop ok ns fuel (i + 1) r.2
    else
      groupLoop ok ns fuel (i + 1) ung

/-- `groupedNormals` for one bucket: indices into its local normal list. -/
def groupNormals (ok : Vec3 → Vec3 → Bool) (ns : List Vec3) : List (List ℕ) :=
  groupLoop ok ns ns.length 0 (List.replicate ns.length true)

/-! ## Step 4/5: emission and index backfill (lines 107–143) -/

/-- The running `avgNormal.add(currNormal)` sum over a group (before
`normalize()`). -/
def groupSum (ns : List Vec3) (grp : List ℕ) : Vec3 :=
  grp.foldl (fun acc j => acc.add (ns.getD j ⟨0, 0, 0⟩)) ⟨0, 0, 0⟩

/-- One iteration of the member loop (lines 118–132): the data pushed
for one output vertex, and the slot `(face, idx)` backfilled with its
index. -/
structure Emit where
  pos : Vec3
  nrm : Vec3
  col : Color3
  face : ℕ
  idx : ℕ
deriving DecidableEq, Repr

/-- The emissions of one bucket: for each group in order, the normalized
group sum, then one output vertex per member carrying the bucket's
representative position, the group normal and the member's colour. -/
def bucketEmits (ok : Vec3 → Vec3 → Bool) (nz : Vec3 → Vec3) (b : Bucket) :
    List Emit :=
  (groupNormals ok (b.entries.map (·.normal))).flatMap fun grp =>
    grp.map fun j =>
      ⟨b.vertex, nz (groupSum (b.entries.map (·.normal)) grp),
        (b.entries.getD j dC).colour, (b.entries.getD j dC).face,
        (b.entries.getD j dC).idx⟩

/-- All emissions of the export, bucket by bucket in first-insertion
order. -/
def emits (ok : Vec3 → Vec3 → Bool) (nz : Vec3 → Vec3) (g : CSG) :
    List Emit :=
  (buildMap (corners g)).flatMap (bucketEmits ok nz)

/-- One triangle's 3-entry index record; `none` models the placeholder
before backfill. -/
abbrev Face := List (Option ℕ)

/-- The mutable state of the emission pass: the flat `vertices`,
`normalVecs` and `colors` arrays and the `faces` records. -/
structure ExpState where
  vertices : List ℚ
  normalVecs : List ℚ
  colors : List ℚ
  faces : List Face
deriving DecidableEq, Repr

/-- `face[idx] = v` for face number `f` (out-of-range writes, which
never occur, leave the state unchanged, as `List.set` does). -/
def setSlot (faces : List Face) (f i v : ℕ) : List Face :=
  faces.set f ((faces.getD f []).set i (some v))

/-- One member iteration: backfill `face[idx] = vertices.length / 3`,
then push position, averaged normal and colour components. -/
def emitStep (st : ExpState) (e : Emit) : ExpState :=
  { vertices := st.vertices ++ [e.pos.x, e.pos.y, e.pos.z]
    normalVecs := st.normalVecs ++ [e.nrm.x, e.nrm.y, e.nrm.z]
    colors := st.colors ++ [e.col.r, e.col.g, e.col.b]
    faces := setSlot st.faces e.face e.idx (st.vertices.length / 3) }

/-- `colorsUsed`: set iff some polygon's `shared.color` is present. -/
def colorsUsed (g : CSG) : Bool := g.polygons.any (·.shared.color.isSome)

/-- The produced `THREE.BufferGeometry`: flat position/normal arrays,
the colour array only when `colorsUsed`, and the index buffer read off
the face records triangle-major. -/
structure ThreeGeometry where
  position : List ℚ
  normal : List ℚ
  color : Option (List ℚ)
  index : List (Option ℕ)
deriving DecidableEq, Repr

/-- `exportThreeGeometry` (lines 34–151), parameterised by the
smoothing test `ok` and the renormalisation `nz` (see the header). -/
def exportThreeGeometry (ok : Vec3 → Vec3 → Bool) (nz : Vec3 → Vec3)
    (g : CSG) : ThreeGeometry :=
  let st0 : ExpState :=
    ⟨[], [], [], List.replicate (triangles g).length [none, none, none]⟩
  let st := (emits ok nz g).foldl emitStep st0
  { position := st.vertices
    normal := st.normalVecs
    color := if colorsUsed g then some st.colors else none
    index := st.faces.flatMap id }

/-! ## Reference formulations used by the theorems -/

/-- The greedy clustering as the specification describes it: the head of
the remaining (index-ordered) list seeds a new group, every remaining
index whose normal passes the test against the seed's normal joins that
group, and the rest is clustered recursively.  Membership is tested
against the seed's normal only. -/
def greedySpec (ok : Vec3 → Vec3 → Bool) (ns : List Vec3) :
    List ℕ → List (List ℕ)
  | [] => []
  | i :: rest =>
    (i :: rest.filter fun j => ok (ns.getD i ⟨0, 0, 0⟩) (ns.getD j ⟨0, 0, 0⟩)) ::
      greedySpec ok ns
        (rest.filter fun j => !ok (ns.getD i ⟨0, 0, 0⟩) (ns.getD j ⟨0, 0, 0⟩))
termination_by l => l.length
decreasing_by
  simp only [List.length_cons]
  exact Nat.lt_succ_of_le (List.length_filter_le _ _)

/-- The first-occurrence subsequence of a list of keys: the order in
which an insertion-ordered map first sees each key. -/
def firstOccur : List WeldKey → List WeldKey
  | [] => []
  | k :: rest => k :: firstOccur (rest.filter fun x => x ≠ k)
termination_by l => l.length
decreasing_by
  simp only [List.length_cons]
  exact Nat.lt_succ_of_le (List.length_filter_le _ _)

/-- The back-reference of a corner instance: which triangle-corner slot
it fills. -/
def slotOf (c : Corner) : ℕ × ℕ := (c.face, c.idx)

/-- Default emission record for (never-taken) out-of-range reads. -/
def dE : Emit := ⟨⟨0, 0, 0⟩, ⟨0, 0, 0⟩, ⟨1, 1, 1⟩, 0, 0⟩

/-- The position triple of output vertex `m` in an exported geometry. -/
def outPos (t : ThreeGeometry) (m : ℕ) : Vec3 :=
  ⟨t.position.getD (3 * m) 0, t.position.getD (3 * m + 1) 0,
    t.position.getD (3 * m + 2) 0⟩

/-- The colour triple of output vertex `m` in a colour buffer. -/
def colourTriple (cb : List ℚ) (m : ℕ) : Color3 :=
  ⟨cb.getD (3 * m) 0, cb.getD (3 * m + 1) 0, cb.getD (3 * m + 2) 0⟩

/-- Read slot `s` of face record `f`. -/
def slotGet (faces : List Face) (f s : ℕ) : Option ℕ :=
  (faces.getD f []).getD s none

/-- Apply a list of slot writes `(face, idx, value)` in order. -/
def applyW (faces : List Face) (ws : List (ℕ × ℕ × ℕ)) : List Face :=
  ws.foldl (fun fs w => setSlot fs w.1 w.2.1 w.2.2) faces

/-- The slot writes performed by the emission pass starting at output
vertex number `v`: the `m`-th emission writes value `v + m` into its
slot. -/
def writesFrom : ℕ → List Emit → List (ℕ × ℕ × ℕ)
  | _, [] => []
  | v, e :: es => (e.face, e.idx, v) :: writesFrom (v + 1) es

/-- The global face ordinal of polygon `pi`'s first triangle. -/
def faceOffset (g : CSG) (pi : ℕ) : ℕ :=
  ((g.polygons.take pi).map fun p => (polyTriangles p).length).sum

/-! ## Mesh ingestion (`importThreeGeometry`, lines 8–32)

Ingestion is modelled with JavaScript value semantics: an out-of-range
array read yields `undefined` (and `undefined * 3 + y` is `NaN`, whose
array read is again `undefined`), modelled as `none`.  No validation of
any kind is performed by the source. -/

/-- A vertex built by ingestion; a coordinate is `none` when the
corresponding buffer read was out of range (`undefined` in JS). -/
structure VertexJ where
  x : Option ℚ
  y : Option ℚ
  z : Option ℚ
deriving DecidableEq, Repr

/-- A polygon built by ingestion (always three vertices, no shared
colour is attached by `importThreeGeometry`). -/
structure PolygonJ where
  vertices : List VertexJ
deriving DecidableEq, Repr

/-- The CSG object built by ingestion, with the two flags cleared at
lines 29–30. -/
structure CSGJ where
  polygons : List PolygonJ
  isCanonicalized : Bool
  isRetesselated : Bool
deriving DecidableEq, Repr

/-- `getVector(x, y) = vectors[vertices[x] * 3 + y]`: `none` when the
index read or the position read is out of range. -/
def getVectorJ (vertices : List ℕ) (positions : List ℚ) (x y : ℕ) :
    Option ℚ :=
  (vertices[x]?).bind fun vi => positions[vi * 3 + y]?

/-- `getVertex(x)`: a vertex from the indexed path. -/
def getVertexJ (vertices : List ℕ) (positions : List ℚ) (x : ℕ) : VertexJ :=
  ⟨getVectorJ vertices positions x 0, getVectorJ vertices positions x 1,
    getVectorJ vertices positions x 2⟩

/-- `getVertex2(x)`: a vertex from the non-indexed (soup) path. -/
def getVertex2J (positions : List ℚ) (x : ℕ) : VertexJ :=
  ⟨positions[x]?, positions[x + 1]?, positions[x + 2]?⟩

/-- `importThreeGeometry` (lines 8–32).  `index = none` models a
geometry without an index attribute.  The indexed loop runs for
`x = 0, 3, 6, …` while `x < vertices.length`, hence
`⌈vertices.length / 3⌉` polygons; the soup loop similarly runs
`⌈positions.length / 9⌉` times.  There is no validation: nothing is
rejected, and out-of-range reads produce `none` coordinates. -/
def importThreeGeometry (index : Option (List ℕ)) (positions : List ℚ) :
    CSGJ :=
  let vertices := index.getD []
  if vertices.length ≠ 0 then
    ⟨(List.range ((vertices.length + 2) / 3)).map fun k =>
        ⟨[getVertexJ vertices positions (3 * k),
          getVertexJ vertices positions (3 * k + 1),
          getVertexJ vertices positions (3 * k + 2)]⟩, false, false⟩
  else
    ⟨(List.range ((positions.length + 8) / 9)).map fun k =>
        ⟨[getVertex2J positions (9 * k), getVertex2J positions (9 * k + 3),
          getVertex2J positions (9 * k + 6)]⟩, false, false⟩

/-! ## Operation dispatch (`prepareObjects` / `runOperation`, lines 156–171) -/

/-- The errors the specification's taxonomy names, plus the JavaScript
`TypeError` that calling a non-function (`undefined`) raises. -/
inductive OperationError where
  | typeError
  | validationError
  | unsupportedOperation
deriving DecidableEq, Repr

/-- The colour object supplied to dispatch; only `r`, `g`, `b` are read
by `prepareObjects` (a carried alpha `a` is ignored). -/
structure DispatchColor where
  r : ℚ
  g : ℚ
  b : ℚ
  a : ℚ
deriving DecidableEq, Repr

/-- Modelled from the spec: `CSG.setColor` lives in `src/core`, which is
not part of the shown sources; §4.4 specifies it as applying the colour
uniformly "as if every polygon's shared Color were set". -/
def CSG.setColor (g : CSG) (c : Color4) : CSG :=
  ⟨g.polygons.map fun p => { p with shared := ⟨some c⟩ }⟩

/-- `prepareObjects` (lines 156–163): convert each input (already-CSG
inputs are returned unchanged by `importThreeGeometry`, line 9; the
claims below apply dispatch to CSG inputs) and apply
`setColor([r, g, b, 1])` to the inputs that have a colour. -/
def prepareObjects (objects : List CSG)
    (colors : List (Option DispatchColor)) : List CSG :=
  objects.enum.map fun io =>
    match colors.getD io.1 none with
    | some c => io.2.setColor ⟨c.r, c.g, c.b, 1⟩
    | none => io.2

/-- Modelled from the spec: the method names a mesh object exposes
(§4.4 names union, subtract, intersect as the boolean capabilities; the
engine itself is out of scope).  `runOperation` performs no validation
of its own against any list — `firstObject[operation]` is a dynamic
property lookup, and this list only records which lookups find a
function. -/
def csgMethodNames : List String := ["union", "subtract", "intersect"]

/-- `runOperation` (lines 165–171), parameterised by the out-of-scope
boolean engine.  The inputs are converted first (line 166); then
`objects.shift()` is called (on an empty list it yields `undefined`,
and `undefined[operation]` throws a `TypeError`), and finally
`firstObject[operation](objects)` is a dynamic method call: when the
name is not a method of the mesh, `firstObject[operation]` is
`undefined` and calling it throws a `TypeError`.  No
`UnsupportedOperationError` exists anywhere in the source. -/
def runOperation (engine : String → CSG → List CSG → CSG)
    (operation : String) (objects : List CSG)
    (colors : List (Option DispatchColor)) : Except OperationError CSG :=
  match prepareObjects objects colors with
  | [] => .error .typeError
  | first :: rest =>
      if operation ∈ csgMethodNames then .ok (engine operation first rest)
      else .error .typeError

/-! ## Concrete inputs used by witnesses and counterexamples -/

/-- Make a polygon from positions, a plane normal and an optional
colour. -/
def mkPoly (vs : List Vec3) (n : Vec3) (col : Option Color4) : Polygon :=
  ⟨vs.map (⟨·⟩), ⟨n⟩, ⟨col⟩⟩

/-- The unit square as two coplanar triangles sharing the diagonal
`(0,0,0)–(1,1,0)`, both with plane normal `(0,0,1)` and no colour. -/
def squareCSG : CSG :=
  ⟨[mkPoly [⟨0, 0, 0⟩, ⟨1, 0, 0⟩, ⟨1, 1, 0⟩] ⟨0, 0, 1⟩ none,
    mkPoly [⟨0, 0, 0⟩, ⟨1, 1, 0⟩, ⟨0, 1, 0⟩] ⟨0, 0, 1⟩ none]⟩

/-- A smoothing test usable in witnesses: exact equality of normals
(identical normals are within any nonnegative angle threshold). -/
def okEq : Vec3 → Vec3 → Bool := fun a b => decide (a = b)

/-- A renormalisation usable in witnesses: a constant unit vector. -/
def nzC : Vec3 → Vec3 := fun _ => ⟨0, 0, 1⟩

/-- The first polygon of the unit square. -/
def sqP0 : Polygon := mkPoly [⟨0, 0, 0⟩, ⟨1, 0, 0⟩, ⟨1, 1, 0⟩] ⟨0, 0, 1⟩ none

/-- The corner instance of the square's first triangle at slot 0. -/
def sqC0 : Corner := ⟨⟨0, 0, 0⟩, ⟨0, 0, 1⟩, ⟨1, 1, 1⟩, 0, 0⟩

/-- The corner instance of the square's first triangle at slot 1. -/
def sqC1 : Corner := ⟨⟨1, 0, 0⟩, ⟨0, 0, 1⟩, ⟨1, 1, 1⟩, 0, 1⟩

/-- A two-polygon mesh with one explicitly coloured polygon (red) and
one uncoloured polygon, far enough apart not to share any bucket. -/
def mixedCSG : CSG :=
  ⟨[mkPoly [⟨0, 0, 0⟩, ⟨1, 0, 0⟩, ⟨1, 1, 0⟩] ⟨0, 0, 1⟩
      (some ⟨1, 0, 0, 1⟩),
    mkPoly [⟨5, 0, 0⟩, ⟨6, 0, 0⟩, ⟨6, 1, 0⟩] ⟨0, 0, 1⟩ none]⟩

/-! # Theorems -/

/-! ## The `toFixed(4)` model -/

/-- `toFixed4` is the sign of `q` together with `|q|·10⁴` rounded
half-up (ties towards the larger magnitude), as `Number.prototype.toFixed`
specifies. -/
theorem toFixed4_spec (q : ℚ) :
    toFixed4 q = (decide (q < 0), ⌊|q| * 10000 + 1/2⌋₊) := by
  have hd : (0 : ℚ) < (q.den : ℚ) := by exact_mod_cast q.pos
  have habs : |q| = (q.num.natAbs : ℚ) / (q.den : ℚ) := by
    conv_lhs => rw [← Rat.num_div_den q]
    rw [abs_div, abs_of_pos hd]
    congr 1
    rw [Int.cast_natAbs, Int.cast_abs]
  have harith : |q| * 10000 + 1/2
      = ((2 * q.num.natAbs * 10000 + q.den : ℕ) : ℚ) / ((2 * q.den : ℕ) : ℚ) := by
    rw [habs]
    push_cast
    field_simp
    ring
  unfold toFixed4
  simp only [Prod.mk.injEq]
  refine ⟨by rw [decide_eq_decide]; exact Rat.num_neg, ?_⟩
  rw [harith, Nat.floor_div_nat, Nat.floor_natCast]

/-! ## The greedy grouping loops compute `greedySpec` -/

/-- Membership in a step-1 `range'` is the interval bound. -/
theorem mem_range'_iff {m s n : ℕ} :
    m ∈ List.range' s n ↔ s ≤ m ∧ m < s + n := by
  rw [List.mem_range']
  constructor
  · rintro ⟨i, hi, rfl⟩
    omega
  · intro h
    exact ⟨m - s, by omega, by omega⟩

/-- Characterisation of the inner scan: it returns exactly the
still-flagged indices of the remaining range that pass the seed test,
and clears exactly their flags. -/
theorem scanJ_spec (ok : Vec3 → Vec3 → Bool) (ns : List Vec3) (iN : Vec3) :
    ∀ (fuel j : ℕ) (ung : List Bool), ns.length = j + fuel →
      (scanJ ok ns iN fuel j ung).1
          = (List.range' j fuel).filter
              (fun k => ung.getD k false && ok iN (ns.getD k ⟨0, 0, 0⟩))
        ∧ (scanJ ok ns iN fuel j ung).2.length = ung.length
        ∧ ∀ k, (scanJ ok ns iN fuel j ung).2.getD k false
            = (ung.getD k false && !decide (k ∈ (scanJ ok ns iN fuel j ung).1)) := by
  intro fuel
  induction fuel with
  | zero =>
      intro j ung _
      refine ⟨rfl, rfl, fun k => ?_⟩
      simp [scanJ]
  | succ fuel ih =>
      intro j ung h
      rw [List.range'_succ]
      by_cases hc : (ung.getD j false && ok iN (ns.getD j ⟨0, 0, 0⟩)) = true
      · have hgd : ung.getD j false = true := (Bool.and_eq_true_iff.mp hc).1
        have hj : j < ung.length := by
          by_contra hj
          have : ung.getD j false = false := by
            rw [List.getD_eq_getElem?_getD, List.getElem?_eq_none (by omega)]
            rfl
          rw [this] at hgd
          exact Bool.false_ne_true hgd
        have hstep : scanJ ok ns iN (fuel + 1) j ung
            = ((scanJ ok ns iN fuel (j + 1) (ung.set j false)).1.cons j,
               (scanJ ok ns iN fuel (j + 1) (ung.set j false)).2) := by
          conv_lhs => rw [scanJ]
          rw [if_pos hc]
        obtain ⟨ih1, ih2, ih3⟩ := ih (j + 1) (ung.set j false) (by omega)
        have hsetD : ∀ k ≠ j, (ung.set j false).getD k false = ung.getD k false := by
          intro k hk
          rw [List.getD_eq_getElem?_getD, List.getD_eq_getElem?_getD,
            List.getElem?_set_ne (by omega)]
        have hfilter : (scanJ ok ns iN fuel (j + 1) (ung.set j false)).1
            = (List.range' (j + 1) fuel).filter
                (fun k => ung.getD k false && ok iN (ns.getD k ⟨0, 0, 0⟩)) := by
          rw [ih1]
          apply List.filter_congr
          intro x hx
          have : x ≠ j := by
            have := mem_range'_iff.mp hx
            omega
          rw [hsetD x this]
        refine ⟨?_, ?_, ?_⟩
        · rw [hstep, List.filter_cons]
          simp only [hc, if_true]
          rw [hfilter]
        · rw [hstep]
          simpa using ih2.trans (List.length_set ung j false)
        · intro k
          rw [hstep]
          simp only [List.cons]
          rw [ih3 k]
          by_cases hk : k = j
          · subst hk
            have h1 : (ung.set k false).getD k false = false := by
              rw [List.getD_eq_getElem?_getD, List.getElem?_set_self hj]
              rfl
            rw [h1, hgd, decide_eq_true (List.mem_cons_self k _)]
            rfl
          · rw [hsetD k hk]
            have hmem : (k ∈ j :: (scanJ ok ns iN fuel (j + 1) (ung.set j false)).1)
                ↔ (k ∈ (scanJ ok ns iN fuel (j + 1) (ung.set j false)).1) := by
              simp [hk]
            rw [decide_eq_decide.mpr hmem]
      · have hstep : scanJ ok ns iN (fuel + 1) j ung
            = scanJ ok ns iN fuel (j + 1) ung := by
          conv_lhs => rw [scanJ]
          rw [if_neg hc]
        obtain ⟨ih1, ih2, ih3⟩ := ih (j + 1) ung (by omega)
        rw [hstep]
        refine ⟨?_, ih2, ih3⟩
        rw [ih1, List.filter_cons, if_neg hc]

/-- The outer loop on the still-flagged indices of the remaining range
computes the specification recursion `greedySpec`. -/
theorem groupLoop_spec (ok : Vec3 → Vec3 → Bool) (ns : List Vec3) :
    ∀ (fuel i : ℕ) (ung : List Bool), ns.length = i + fuel →
      groupLoop ok ns fuel i ung
        = greedySpec ok ns ((List.range' i fuel).filter fun k => ung.getD k false) := by
  intro fuel
  induction fuel with
  | zero =>
      intro i ung _
      simp [groupLoop, greedySpec]
  | succ fuel ih =>
      intro i ung h
      by_cases hu : ung.getD i false = true
      · have hi : i < ung.length := by
          by_contra hi
          have : ung.getD i false = false := by
            rw [List.getD_eq_getElem?_getD, List.getElem?_eq_none (by omega)]
            rfl
          rw [this] at hu
          exact Bool.false_ne_true hu
        have hfuel : ns.length - i = fuel + 1 := by omega
        have hstep : groupLoop ok ns (fuel + 1) i ung
            = (i :: (scanJ ok ns (ns.getD i ⟨0, 0, 0⟩) (fuel + 1) i (ung.set i false)).1)
              :: groupLoop ok ns fuel (i + 1)
                  (scanJ ok ns (ns.getD i ⟨0, 0, 0⟩) (fuel + 1) i (ung.set i false)).2 := by
          conv_lhs => rw [groupLoop]
          rw [if_pos hu, hfuel]
        obtain ⟨hs1, hs2, hs3⟩ :=
          scanJ_spec ok ns (ns.getD i ⟨0, 0, 0⟩) (fuel + 1) i (ung.set i false) h
        have hseti : (ung.set i false).getD i false = false := by
          rw [List.getD_eq_getElem?_getD, List.getElem?_set_self hi]
          rfl
        have hsetD : ∀ k, k ≠ i → (ung.set i false).getD k false = ung.getD k false := by
          intro k hk
          rw [List.getD_eq_getElem?_getD, List.getD_eq_getElem?_getD,
            List.getElem?_set_ne (by omega)]
        have hr1 : (scanJ ok ns (ns.getD i ⟨0, 0, 0⟩) (fuel + 1) i (ung.set i false)).1
            = (List.range' (i + 1) fuel).filter
                (fun k => ung.getD k false
                  && ok (ns.getD i ⟨0, 0, 0⟩) (ns.getD k ⟨0, 0, 0⟩)) := by
          rw [hs1, List.range'_succ, List.filter_cons]
          rw [if_neg (by rw [hseti]; simp)]
          apply List.filter_congr
          intro x hx
          have hxne : x ≠ i := by
            have := mem_range'_iff.mp hx
            omega
          rw [hsetD x hxne]
        have hrec : (List.range' (i + 1) fuel).filter
              (fun k => (scanJ ok ns (ns.getD i ⟨0, 0, 0⟩) (fuel + 1) i
                (ung.set i false)).2.getD k false)
            = (List.range' (i + 1) fuel).filter
                (fun k => ung.getD k false
                  && !ok (ns.getD i ⟨0, 0, 0⟩) (ns.getD k ⟨0, 0, 0⟩)) := by
          apply List.filter_congr
          intro x hx
          have hxi : x ≠ i := by
            have := mem_range'_iff.mp hx
            omega
          rw [hs3 x, hsetD x hxi, hr1]
          cases hux : ung.getD x false with
          | false => rfl
          | true =>
              cases hok : ok (ns.getD i ⟨0, 0, 0⟩) (ns.getD x ⟨0, 0, 0⟩) with
              | false =>
                  have hnot : x ∉ (List.range' (i + 1) fuel).filter
                      (fun k => ung.getD k false
                        && ok (ns.getD i ⟨0, 0, 0⟩) (ns.getD k ⟨0, 0, 0⟩)) := by
                    intro hmem
                    have hx2 := (List.mem_filter.mp hmem).2
                    rw [hux, hok] at hx2
                    exact Bool.false_ne_true hx2
                  rw [decide_eq_false hnot]
              | true =>
                  have hmem : x ∈ (List.range' (i + 1) fuel).filter
                      (fun k => ung.getD k false
                        && ok (ns.getD i ⟨0, 0, 0⟩) (ns.getD k ⟨0, 0, 0⟩)) :=
                    List.mem_filter.mpr ⟨hx, by rw [hux, hok]; rfl⟩
                  rw [decide_eq_true hmem]
        rw [hstep, hr1, ih (i + 1) _ (by omega), hrec]
        rw [List.range'_succ, List.filter_cons, if_pos hu]
        conv_rhs => rw [greedySpec]
        rw [List.filter_filter, List.filter_filter]
        congr 1
        · congr 1
          apply List.filter_congr
          intro x _
          rw [Bool.and_comm]
        · congr 1
          apply List.filter_congr
          intro x _
          rw [Bool.and_comm]
      · have hstep : groupLoop ok ns (fuel + 1) i ung
            = groupLoop ok ns fuel (i + 1) ung := by
          conv_lhs => rw [groupLoop]
          rw [if_neg hu]
        rw [hstep, ih (i + 1) ung (by omega), List.range'_succ, List.filter_cons,
          if_neg hu]

/-- `groupedNormals` is the specification's greedy clustering, started
on all indices in increasing order. -/
theorem groupNormals_eq_greedySpec (ok : Vec3 → Vec3 → Bool) (ns : List Vec3) :
    groupNormals ok ns = greedySpec ok ns (List.range ns.length) := by
  unfold groupNormals
  rw [groupLoop_spec ok ns ns.length 0 _ (by omega)]
  congr 1
  rw [List.range_eq_range']
  apply List.filter_eq_self.mpr
  intro a ha
  have halt : a < ns.length := by
    have := mem_range'_iff.mp ha
    omega
  rw [List.getD_eq_getElem?_getD, List.getElem?_replicate_of_lt halt]
  rfl

/-- The greedy clustering partitions its input: the concatenation of
the groups is a permutation of the processed index list. -/
theorem greedySpec_flatten_perm (ok : Vec3 → Vec3 → Bool) (ns : List Vec3) :
    ∀ (n : ℕ) (l : List ℕ), l.length ≤ n →
      (greedySpec ok ns l).flatten.Perm l := by
  intro n
  induction n with
  | zero =>
      intro l hl
      have : l = [] := List.eq_nil_of_length_eq_zero (by omega)
      subst this
      rw [greedySpec]
      exact List.Perm.refl _
  | succ n ihn =>
      intro l hl
      cases l with
      | nil =>
          rw [greedySpec]
          exact List.Perm.refl _
      | cons i rest =>
          rw [greedySpec]
          have hlen : rest.length ≤ n := by
            simp only [List.length_cons] at hl
            omega
          have hflat := ihn
            (rest.filter fun j => !ok (ns.getD i ⟨0, 0, 0⟩) (ns.getD j ⟨0, 0, 0⟩))
            (le_trans (List.length_filter_le _ _) hlen)
          simp only [List.flatten_cons, List.cons_append]
          exact List.Perm.cons i
            ((List.Perm.append_left _ hflat).trans (List.filter_append_perm _ rest))

/-- Every bucket index lands in exactly one smoothing group: the groups
flatten to a permutation of `range`. -/
theorem groupNormals_flatten_perm (ok : Vec3 → Vec3 → Bool) (ns : List Vec3) :
    (groupNormals ok ns).flatten.Perm (List.range ns.length) := by
  rw [groupNormals_eq_greedySpec]
  exact greedySpec_flatten_perm ok ns _ _ le_rfl

/-! ## The vertex map: insertion order, key invariant, content -/

/-- Inserting a corner either leaves the key sequence unchanged (its
hash was already present) or appends its hash at the end. -/
theorem insertCorner_keys (m : List Bucket) (c : Corner) :
    (insertCorner m c).map (·.key)
      = if weldKey c.pos ∈ m.map (·.key) then m.map (·.key)
        else m.map (·.key) ++ [weldKey c.pos] := by
  induction m with
  | nil => simp [insertCorner]
  | cons b bs ih =>
      rw [insertCorner]
      by_cases hb : b.key = weldKey c.pos
      · rw [if_pos hb]
        simp [hb]
      · rw [if_neg hb]
        simp only [List.map_cons, ih]
        by_cases hm : weldKey c.pos ∈ bs.map (·.key)
        · rw [if_pos hm, if_pos (by simp [hm])]
        · rw [if_neg hm, if_neg (by simp [hm, Ne.symm hb])]
          rfl

/-- Inserting a corner adds exactly that corner to the map's contents
(up to bucket order). -/
theorem insertCorner_flatMap_perm (m : List Bucket) (c : Corner) :
    ((insertCorner m c).flatMap (·.entries)).Perm
      (m.flatMap (·.entries) ++ [c]) := by
  induction m with
  | nil => simp [insertCorner]
  | cons b bs ih =>
      rw [insertCorner]
      by_cases hb : b.key = weldKey c.pos
      · rw [if_pos hb]
        simp only [List.flatMap_cons]
        rw [List.append_assoc, List.append_assoc]
        exact List.Perm.append_left _ List.perm_append_comm
      · rw [if_neg hb]
        simp only [List.flatMap_cons]
        rw [List.append_assoc]
        exact List.Perm.append_left _ ih

/-- Inserting preserves the bucket invariant: all entries of a bucket
hash to the bucket's key, as does its representative vertex. -/
theorem insertCorner_inv (c : Corner) :
    ∀ (m : List Bucket),
      (∀ b ∈ m, (∀ e ∈ b.entries, weldKey e.pos = b.key)
        ∧ weldKey b.vertex = b.key) →
      ∀ b ∈ insertCorner m c,
        (∀ e ∈ b.entries, weldKey e.pos = b.key)
          ∧ weldKey b.vertex = b.key := by
  intro m
  induction m with
  | nil =>
      intro _ b hb
      rw [insertCorner] at hb
      simp only [List.mem_singleton] at hb
      subst hb
      refine ⟨?_, rfl⟩
      intro e he
      simp only [List.mem_singleton] at he
      subst he
      rfl
  | cons b0 bs ih =>
      intro h b hb
      rw [insertCorner] at hb
      by_cases hk : b0.key = weldKey c.pos
      · rw [if_pos hk] at hb
        rcases List.mem_cons.mp hb with hb | hb
        · subst hb
          obtain ⟨h1, h2⟩ := h b0 (List.mem_cons_self _ _)
          refine ⟨?_, h2⟩
          intro e he
          rcases List.mem_append.mp he with he | he
          · exact h1 e he
          · simp only [List.mem_singleton] at he
            subst he
            exact hk.symm
        · exact h b (List.mem_cons_of_mem _ hb)
      · rw [if_neg hk] at hb
        rcases List.mem_cons.mp hb with hb | hb
        · exact hb ▸ h b0 (List.mem_cons_self _ _)
        · exact ih (fun b' hb' => h b' (List.mem_cons_of_mem _ hb')) b hb

/-- Folding corners into the map appends exactly those corners to its
contents (up to bucket order). -/
theorem foldl_insert_flatMap_perm :
    ∀ (l : List Corner) (acc : List Bucket),
      ((l.foldl insertCorner acc).flatMap (·.entries)).Perm
        (acc.flatMap (·.entries) ++ l) := by
  intro l
  induction l with
  | nil =>
      intro acc
      simp
  | cons c rest ih =>
      intro acc
      rw [List.foldl_cons]
      refine (ih (insertCorner acc c)).trans ?_
      refine ((insertCorner_flatMap_perm acc c).append_right rest).trans ?_
      rw [List.append_assoc]
      exact List.Perm.refl _

/-- The vertex map's contents are exactly the corner instances. -/
theorem buildMap_flatMap_perm (l : List Corner) :
    ((buildMap l).flatMap (·.entries)).Perm l := by
  simpa using foldl_insert_flatMap_perm l []

/-- Every bucket of the map satisfies the bucket invariant. -/
theorem buildMap_inv (l : List Corner) :
    ∀ b ∈ buildMap l,
      (∀ e ∈ b.entries, weldKey e.pos = b.key) ∧ weldKey b.vertex = b.key := by
  have aux : ∀ (l : List Corner) (acc : List Bucket),
      (∀ b ∈ acc, (∀ e ∈ b.entries, weldKey e.pos = b.key)
        ∧ weldKey b.vertex = b.key) →
      ∀ b ∈ l.foldl insertCorner acc,
        (∀ e ∈ b.entries, weldKey e.pos = b.key)
          ∧ weldKey b.vertex = b.key := by
    intro l
    induction l with
    | nil => intro acc h; exact h
    | cons c rest ih =>
        intro acc h
        rw [List.foldl_cons]
        exact ih (insertCorner acc c) (insertCorner_inv c acc h)
  exact aux l [] (by intro b hb; exact absurd hb (List.not_mem_nil b))

/-- Bucket keys are pairwise distinct. -/
theorem buildMap_keys_nodup (l : List Corner) :
    ((buildMap l).map (·.key)).Nodup := by
  have aux : ∀ (l : List Corner) (acc : List Bucket),
      (acc.map (·.key)).Nodup →
      ((l.foldl insertCorner acc).map (·.key)).Nodup := by
    intro l
    induction l with
    | nil => intro acc h; exact h
    | cons c rest ih =>
        intro acc h
        rw [List.foldl_cons]
        apply ih
        rw [insertCorner_keys]
        by_cases hm : weldKey c.pos ∈ acc.map (·.key)
        · rw [if_pos hm]
          exact h
        · rw [if_neg hm]
          exact List.Nodup.append h (List.nodup_singleton _)
            (by rw [List.disjoint_singleton]; exact hm)
  exact aux l [] (by simp)

/-- The key sequence of the map is the first-occurrence subsequence of
the corner hash sequence: buckets are visited in first-insertion
order. -/
theorem buildMap_keys (l : List Corner) :
    (buildMap l).map (·.key) = firstOccur (l.map fun c => weldKey c.pos) := by
  have aux : ∀ (l : List Corner) (acc : List Bucket),
      (l.foldl insertCorner acc).map (·.key)
        = acc.map (·.key)
          ++ firstOccur ((l.map fun c => weldKey c.pos).filter
              fun k => !decide (k ∈ acc.map (·.key))) := by
    intro l
    induction l with
    | nil =>
        intro acc
        simp [firstOccur]
    | cons c rest ih =>
        intro acc
        rw [List.foldl_cons, ih (insertCorner acc c), insertCorner_keys,
          List.map_cons, List.filter_cons]
        by_cases hm : weldKey c.pos ∈ acc.map (·.key)
        · rw [if_pos hm]
          rw [if_neg (by simp [hm])]
        · rw [if_neg hm]
          rw [if_pos (by simp [hm])]
          rw [firstOccur, List.append_assoc, List.singleton_append]
          congr 2
          rw [List.filter_filter]
          congr 1
          apply List.filter_congr
          intro x _
          simp only [List.mem_append, List.mem_singleton, decide_not]
          by_cases hx : x = weldKey c.pos
          · subst hx
            simp
          · by_cases hax : x ∈ acc.map (·.key) <;> simp [hx, hax]
  have := aux l []
  simpa using this

/-! ## Corner slots: one per triangle corner, pairwise distinct -/

/-- The first components of `enum` are `range`. -/
theorem enum_map_fst' (l : List α) :
    l.enum.map Prod.fst = List.range l.length := by
  rw [List.enum_eq_enumFrom, List.enumFrom_map_fst, List.range_eq_range']

/-- The slots of the corner list enumerate the three corners of every
triangle in order. -/
theorem corners_map_slot (g : CSG) :
    (corners g).map slotOf
      = (List.range (triangles g).length).flatMap
          fun f => [(f, 0), (f, 1), (f, 2)] := by
  unfold corners
  rw [List.map_flatMap]
  have h1 : ∀ ft ∈ (triangles g).enum,
      (triCorners ft.1 ft.2).map slotOf = [(ft.1, 0), (ft.1, 1), (ft.1, 2)] := by
    intro ft _
    rfl
  rw [List.flatMap_congr h1]
  rw [← enum_map_fst' (triangles g), List.flatMap_map]

/-- Slot lists of distinct faces are element-disjoint, so the whole
slot list is duplicate-free. -/
theorem flatMapTriple_nodup (L : List ℕ) (h : L.Nodup) :
    (L.flatMap fun f => ([(f, 0), (f, 1), (f, 2)] : List (ℕ × ℕ))).Nodup := by
  rw [List.nodup_flatMap]
  refine ⟨fun x _ => by simp, ?_⟩
  refine h.imp ?_
  intro a b hab
  intro x hxa hxb
  simp only [List.mem_cons, List.not_mem_nil, or_false] at hxa hxb
  apply hab
  rcases hxa with h1 | h1 | h1 <;> rcases hxb with h2 | h2 | h2 <;>
    (rw [h1] at h2; exact congrArg Prod.fst h2)

/-- No two corner instances fill the same triangle-corner slot. -/
theorem corners_slot_nodup (g : CSG) : ((corners g).map slotOf).Nodup := by
  rw [corners_map_slot]
  exact flatMapTriple_nodup _ (List.nodup_range _)

/-- The three corners of any in-range face are in the corner list. -/
theorem triCorners_mem_corners (g : CSG) (f : ℕ)
    (hf : f < (triangles g).length) :
    ∀ c ∈ triCorners f ((triangles g).getD f dT), c ∈ corners g := by
  intro c hc
  have henum : (f, (triangles g).getD f dT) ∈ (triangles g).enum := by
    have hlen : f < (triangles g).enum.length := by simpa using hf
    have h1 := List.getElem_enum (triangles g) f hlen
    have h2 : (triangles g).getD f dT = (triangles g)[f] :=
      List.getD_eq_getElem _ _ hf
    rw [h2, ← h1]
    exact List.getElem_mem _
  exact List.mem_flatMap_of_mem henum hc

/-- Every corner's back-reference is in range: its face exists and its
slot index is 0, 1 or 2. -/
theorem corner_bounds (g : CSG) :
    ∀ c ∈ corners g, c.face < (triangles g).length ∧ c.idx < 3 := by
  intro c hc
  obtain ⟨ft, hft, hcf⟩ := List.mem_flatMap.mp hc
  have hf1 : ft.1 < (triangles g).length := by
    have := List.mem_enum_iff_getElem?.mp hft
    have h2 := List.getElem?_eq_some.mp this
    exact h2.1
  simp only [triCorners, List.mem_cons, List.not_mem_nil, or_false] at hcf
  rcases hcf with h | h | h
  · rw [h]; exact ⟨hf1, Nat.lt_of_sub_eq_succ rfl⟩
  · rw [h]; exact ⟨hf1, Nat.lt_of_sub_eq_succ rfl⟩
  · rw [h]; exact ⟨hf1, Nat.lt_of_sub_eq_succ rfl⟩

/-- Every corner carries the data of the triangle its face ordinal
denotes: that triangle's normal and colour, and one of its three corner
positions (selected by the slot index). -/
theorem corner_triangle (g : CSG) :
    ∀ c ∈ corners g,
      c.normal = ((triangles g).getD c.face dT).normal
        ∧ c.colour = ((triangles g).getD c.face dT).colour
        ∧ c.pos = triPos ((triangles g).getD c.face dT) c.idx
        ∧ ((triangles g).getD c.face dT) ∈ triangles g := by
  intro c hc
  obtain ⟨ft, hft, hcf⟩ := List.mem_flatMap.mp hc
  have hget := List.mem_enum_iff_getElem?.mp hft
  have h2 := List.getElem?_eq_some.mp hget
  obtain ⟨hlt, hval⟩ := h2
  have hgd : (triangles g).getD ft.1 dT = ft.2 := by
    rw [List.getD_eq_getElem _ _ hlt, hval]
  have hmem : ft.2 ∈ triangles g := by
    rw [← hval]
    exact List.getElem_mem _
  simp only [triCorners, List.mem_cons, List.not_mem_nil, or_false] at hcf
  rcases hcf with h | h | h
  · rw [h]; exact ⟨by rw [hgd], by rw [hgd], by rw [hgd]; rfl, by rw [hgd]; exact hmem⟩
  · rw [h]; exact ⟨by rw [hgd], by rw [hgd], by rw [hgd]; rfl, by rw [hgd]; exact hmem⟩
  · rw [h]; exact ⟨by rw [hgd], by rw [hgd], by rw [hgd]; rfl, by rw [hgd]; exact hmem⟩

/-! ## The emission fold: buffers, writes and slot lookups -/

/-- The position buffer accumulates three floats per emission. -/
theorem foldl_emitStep_vertices (es : List Emit) :
    ∀ st : ExpState, (es.foldl emitStep st).vertices
      = st.vertices ++ es.flatMap fun e => [e.pos.x, e.pos.y, e.pos.z] := by
  induction es with
  | nil => intro st; simp
  | cons e rest ih =>
      intro st
      rw [List.foldl_cons, ih]
      simp [emitStep]

/-- The normal buffer accumulates three floats per emission. -/
theorem foldl_emitStep_normals (es : List Emit) :
    ∀ st : ExpState, (es.foldl emitStep st).normalVecs
      = st.normalVecs ++ es.flatMap fun e => [e.nrm.x, e.nrm.y, e.nrm.z] := by
  induction es with
  | nil => intro st; simp
  | cons e rest ih =>
      intro st
      rw [List.foldl_cons, ih]
      simp [emitStep]

/-- The colour buffer accumulates three floats per emission. -/
theorem foldl_emitStep_colors (es : List Emit) :
    ∀ st : ExpState, (es.foldl emitStep st).colors
      = st.colors ++ es.flatMap fun e => [e.col.r, e.col.g, e.col.b] := by
  induction es with
  | nil => intro st; simp
  | cons e rest ih =>
      intro st
      rw [List.foldl_cons, ih]
      simp [emitStep]

/-- The face records after the fold are the initial records with the
emission writes applied: the `m`-th emission writes output-vertex
number `m` (counting from the initial vertex count) into its slot. -/
theorem foldl_emitStep_faces (es : List Emit) :
    ∀ (st : ExpState) (v : ℕ), st.vertices.length = 3 * v →
      (es.foldl emitStep st).faces = applyW st.faces (writesFrom v es) := by
  induction es with
  | nil => intro st v _; rfl
  | cons e rest ih =>
      intro st v h
      rw [List.foldl_cons, writesFrom]
      have hv : st.vertices.length / 3 = v := by omega
      have hfaces : (emitStep st e).faces = setSlot st.faces e.face e.idx v := by
        simp only [emitStep]
        rw [hv]
      have hlen : (emitStep st e).vertices.length = 3 * (v + 1) := by
        simp only [emitStep, List.length_append, h]
        simp
        omega
      rw [ih (emitStep st e) (v + 1) hlen, hfaces]
      rfl

/-- A slot write leaves every other slot unchanged. -/
theorem slotGet_setSlot_ne (fs : List Face) (f1 s1 v f s : ℕ)
    (h : ¬(f1 = f ∧ s1 = s)) :
    slotGet (setSlot fs f1 s1 v) f s = slotGet fs f s := by
  unfold slotGet setSlot
  by_cases hf : f1 = f
  · subst hf
    have hs : s1 ≠ s := fun hs => h ⟨rfl, hs⟩
    by_cases hlt : f1 < fs.length
    · rw [List.getD_eq_getElem?_getD ((fs.set f1 _)) f1,
        List.getElem?_set_self hlt]
      rw [List.getD_eq_getElem?_getD fs f1]
      cases hx : fs[f1]? with
      | none =>
          exact absurd hx (by simp [hlt])
      | some inner =>
          simp only [Option.getD_some]
          rw [List.getD_eq_getElem?_getD (inner.set s1 (some v)) s,
            List.getElem?_set_ne hs, ← List.getD_eq_getElem?_getD]
    · rw [List.set_eq_of_length_le (by omega)]
  · rw [List.getD_eq_getElem?_getD (fs.set f1 _) f,
      List.getElem?_set_ne hf, ← List.getD_eq_getElem?_getD]

/-- A write to a slot none of the remaining writes touch persists. -/
theorem applyW_slotGet_other :
    ∀ (ws : List (ℕ × ℕ × ℕ)) (fs : List Face) (f s : ℕ),
      (∀ w ∈ ws, ¬(w.1 = f ∧ w.2.1 = s)) →
      slotGet (applyW fs ws) f s = slotGet fs f s := by
  intro ws
  induction ws with
  | nil => intro fs f s _; rfl
  | cons w ws ih =>
      intro fs f s hno
      have h1 : applyW fs (w :: ws) = applyW (setSlot fs w.1 w.2.1 w.2.2) ws := rfl
      rw [h1, ih _ f s fun w' hw' => hno w' (List.mem_cons_of_mem _ hw')]
      exact slotGet_setSlot_ne fs w.1 w.2.1 w.2.2 f s
        (hno w (List.mem_cons_self _ _))

/-- Applying writes never changes the number of face records. -/
theorem applyW_length :
    ∀ (ws : List (ℕ × ℕ × ℕ)) (fs : List Face),
      (applyW fs ws).length = fs.length := by
  intro ws
  induction ws with
  | nil => intro fs; rfl
  | cons w ws ih =>
      intro fs
      have h1 : applyW fs (w :: ws) = applyW (setSlot fs w.1 w.2.1 w.2.2) ws := rfl
      rw [h1, ih]
      simp [setSlot]

/-- Applying writes never changes the length of any face record. -/
theorem applyW_inner_length :
    ∀ (ws : List (ℕ × ℕ × ℕ)) (fs : List Face) (f : ℕ),
      ((applyW fs ws).getD f []).length = (fs.getD f []).length := by
  intro ws
  induction ws with
  | nil => intro fs f; rfl
  | cons w ws ih =>
      intro fs f
      have h1 : applyW fs (w :: ws) = applyW (setSlot fs w.1 w.2.1 w.2.2) ws := rfl
      rw [h1, ih]
      unfold setSlot
      by_cases hf : w.1 = f
      · subst hf
        by_cases hlt : w.1 < fs.length
        · rw [List.getD_eq_getElem?_getD (fs.set w.1 _) w.1,
            List.getElem?_set_self hlt]
          simp only [Option.getD_some, List.length_set]
        · rw [List.set_eq_of_length_le (by omega)]
      · rw [List.getD_eq_getElem?_getD (fs.set w.1 _) f,
          List.getElem?_set_ne hf, ← List.getD_eq_getElem?_getD]

/-- Writes of a concatenation, with the vertex counter advanced. -/
theorem writesFrom_append (l1 : List Emit) :
    ∀ (v : ℕ) (l2 : List Emit),
      writesFrom v (l1 ++ l2) = writesFrom v l1 ++ writesFrom (v + l1.length) l2 := by
  induction l1 with
  | nil => intro v l2; simp [writesFrom]
  | cons e l1 ih =>
      intro v l2
      rw [List.cons_append, writesFrom, writesFrom, ih (v + 1) l2, List.cons_append]
      have hv : v + 1 + l1.length = v + (l1.length + 1) := by omega
      simp only [List.length_cons]
      rw [hv]

/-- Every write's slot comes from the emission it encodes. -/
theorem writesFrom_mem_slot :
    ∀ (es : List Emit) (v : ℕ) (w : ℕ × ℕ × ℕ), w ∈ writesFrom v es →
      ∃ e ∈ es, w.1 = e.face ∧ w.2.1 = e.idx := by
  intro es
  induction es with
  | nil => intro v w hw; exact absurd hw (List.not_mem_nil w)
  | cons e es ih =>
      intro v w hw
      rw [writesFrom] at hw
      rcases List.mem_cons.mp hw with hw | hw
      · exact ⟨e, List.mem_cons_self _ _, by rw [hw], by rw [hw]⟩
      · obtain ⟨e', he', h1, h2⟩ := ih (v + 1) w hw
        exact ⟨e', List.mem_cons_of_mem _ he', h1, h2⟩

/-- The unique write to a slot determines its final contents. -/
theorem emits_slotGet (es1 : List Emit) (e : Emit) (es2 : List Emit)
    (fs0 : List Face)
    (hno : ∀ e2 ∈ es2, ¬(e2.face = e.face ∧ e2.idx = e.idx))
    (hf : e.face < fs0.length)
    (hs : e.idx < (fs0.getD e.face []).length) :
    slotGet (applyW fs0 (writesFrom 0 (es1 ++ e :: es2))) e.face e.idx
      = some es1.length := by
  rw [writesFrom_append]
  rw [show applyW fs0 (writesFrom 0 es1 ++ writesFrom (0 + es1.length) (e :: es2))
      = applyW (applyW fs0 (writesFrom 0 es1))
          (writesFrom (0 + es1.length) (e :: es2)) from List.foldl_append _ _ _ _]
  rw [writesFrom]
  rw [show applyW (applyW fs0 (writesFrom 0 es1))
        ((e.face, e.idx, 0 + es1.length) :: writesFrom (0 + es1.length + 1) es2)
      = applyW (setSlot (applyW fs0 (writesFrom 0 es1)) e.face e.idx
          (0 + es1.length)) (writesFrom (0 + es1.length + 1) es2) from rfl]
  rw [applyW_slotGet_other _ _ e.face e.idx ?hno2]
  case hno2 =>
    intro w hw
    obtain ⟨e2, he2, h1, h2⟩ := writesFrom_mem_slot es2 _ w hw
    intro ⟨hwf, hwi⟩
    exact hno e2 he2 ⟨by rw [← h1, hwf], by rw [← h2, hwi]⟩
  unfold slotGet setSlot
  have hf1 : e.face < (applyW fs0 (writesFrom 0 es1)).length := by
    rw [applyW_length]
    exact hf
  rw [List.getD_eq_getElem?_getD _ e.face, List.getElem?_set_self hf1]
  simp only [Option.getD_some]
  have hs1 : e.idx < ((applyW fs0 (writesFrom 0 es1)).getD e.face []).length := by
    rw [applyW_inner_length]
    exact hs
  rw [List.getD_eq_getElem?_getD _ e.idx, List.getElem?_set_self hs1]
  simp only [Option.getD_some, Nat.zero_add]

/-- Indexing into a concatenation of length-3 chunks. -/
theorem flatten_length3_getD {β : Type} (dβ : β) :
    ∀ (L : List (List β)), (∀ x ∈ L, x.length = 3) →
      ∀ (m i : ℕ), m < L.length → i < 3 →
        L.flatten.getD (3 * m + i) dβ = (L.getD m []).getD i dβ := by
  intro L
  induction L with
  | nil =>
      intro _ m i hm _
      exact absurd hm (by simp)
  | cons x L ih =>
      intro h3 m i hm hi
      have hx : x.length = 3 := h3 x (List.mem_cons_self _ _)
      rw [List.flatten_cons]
      cases m with
      | zero =>
          simp only [Nat.mul_zero, Nat.zero_add, List.getD_cons_zero]
          rw [List.getD_eq_getElem?_getD, List.getElem?_append_left (by omega),
            ← List.getD_eq_getElem?_getD]
      | succ m =>
          have hge : x.length ≤ 3 * (m + 1) + i := by omega
          rw [List.getD_eq_getElem?_getD, List.getElem?_append_right hge,
            ← List.getD_eq_getElem?_getD]
          have harg : 3 * (m + 1) + i - x.length = 3 * m + i := by omega
          rw [harg, List.getD_cons_succ]
          exact ih (fun y hy => h3 y (List.mem_cons_of_mem _ hy)) m i
            (by simpa using hm) hi

/-- Reading every position of a list with `getD` reproduces the list. -/
theorem range_map_getD {α : Type} (l : List α) (d : α) :
    (List.range l.length).map (fun i => l.getD i d) = l := by
  apply List.ext_getElem
  · simp
  · intro i h1 h2
    simp only [List.getElem_map, List.getElem_range]
    exact List.getD_eq_getElem l d h2

/-! ## The emissions of a bucket and of the whole export -/

/-- A `flatMap` is permutation-congruent in its function. -/
theorem flatMap_perm_congr {α β : Type} (L : List α) (f g : α → List β)
    (h : ∀ a ∈ L, (f a).Perm (g a)) : (L.flatMap f).Perm (L.flatMap g) := by
  induction L with
  | nil => exact List.Perm.refl _
  | cons a L ih =>
      rw [List.flatMap_cons, List.flatMap_cons]
      exact (h a (List.mem_cons_self _ _)).append
        (ih fun a' ha' => h a' (List.mem_cons_of_mem _ ha'))

/-- Every emission of a bucket carries the bucket's representative
position and the colour and back-reference of one of its entries. -/
theorem bucketEmits_mem (ok : Vec3 → Vec3 → Bool) (nz : Vec3 → Vec3)
    (b : Bucket) :
    ∀ e ∈ bucketEmits ok nz b,
      e.pos = b.vertex ∧ ∃ j, j < b.entries.length
        ∧ e.col = (b.entries.getD j dC).colour
        ∧ e.face = (b.entries.getD j dC).face
        ∧ e.idx = (b.entries.getD j dC).idx := by
  intro e he
  unfold bucketEmits at he
  obtain ⟨grp, hgrp, he2⟩ := List.mem_flatMap.mp he
  obtain ⟨j, hj, hje⟩ := List.mem_map.mp he2
  subst hje
  refine ⟨rfl, j, ?_, rfl, rfl, rfl⟩
  have hjoin : j ∈ (groupNormals ok (b.entries.map (·.normal))).flatten :=
    List.mem_flatten_of_mem hgrp hj
  have hmem := ((groupNormals_flatten_perm ok _).mem_iff).mp hjoin
  rw [List.mem_range, List.length_map] at hmem
  exact hmem

/-- The emissions of a bucket fill exactly the slots of its entries,
once each. -/
theorem bucketEmits_slots_perm (ok : Vec3 → Vec3 → Bool) (nz : Vec3 → Vec3)
    (b : Bucket) :
    ((bucketEmits ok nz b).map fun e => (e.face, e.idx)).Perm
      (b.entries.map fun c => (c.face, c.idx)) := by
  unfold bucketEmits
  rw [List.map_flatMap]
  have h1 : ∀ grp ∈ groupNormals ok (b.entries.map (·.normal)),
      ((grp.map fun j =>
          (⟨b.vertex, nz (groupSum (b.entries.map (·.normal)) grp),
            (b.entries.getD j dC).colour, (b.entries.getD j dC).face,
            (b.entries.getD j dC).idx⟩ : Emit)).map fun e => (e.face, e.idx))
        = grp.map fun j =>
            ((b.entries.getD j dC).face, (b.entries.getD j dC).idx) := by
    intro grp _
    rw [List.map_map]
    rfl
  rw [List.flatMap_congr h1]
  have h2 : (groupNormals ok (b.entries.map (·.normal))).flatMap
        (fun grp => grp.map fun j =>
          ((b.entries.getD j dC).face, (b.entries.getD j dC).idx))
      = ((groupNormals ok (b.entries.map (·.normal))).flatten).map
          (fun j => ((b.entries.getD j dC).face, (b.entries.getD j dC).idx)) := by
    rw [List.flatMap_def, ← List.map_flatten]
  rw [h2]
  refine ((groupNormals_flatten_perm ok _).map _).trans ?_
  rw [List.length_map]
  have h3 : (List.range b.entries.length).map
        (fun j => ((b.entries.getD j dC).face, (b.entries.getD j dC).idx))
      = ((List.range b.entries.length).map
          (fun j => b.entries.getD j dC)).map fun c => (c.face, c.idx) := by
    rw [List.map_map]
    rfl
  rw [h3, range_map_getD]

/-- Per bucket, the emitted normals are the renormalised vector sums of
the groups' member normals, one per member. -/
theorem bucketEmits_normals (ok : Vec3 → Vec3 → Bool) (nz : Vec3 → Vec3)
    (b : Bucket) :
    (bucketEmits ok nz b).map (·.nrm)
      = (groupNormals ok (b.entries.map (·.normal))).flatMap
          fun grp => grp.map fun _ =>
            nz (groupSum (b.entries.map (·.normal)) grp) := by
  unfold bucketEmits
  rw [List.map_flatMap]
  apply List.flatMap_congr
  intro grp _
  rw [List.map_map]
  rfl

/-- Every emission of the export comes from a bucket: it carries that
bucket's representative position and one of its entries' colour and
back-reference. -/
theorem emits_mem (ok : Vec3 → Vec3 → Bool) (nz : Vec3 → Vec3) (g : CSG) :
    ∀ e ∈ emits ok nz g,
      ∃ b ∈ buildMap (corners g),
        e.pos = b.vertex ∧ ∃ j, j < b.entries.length
          ∧ e.col = (b.entries.getD j dC).colour
          ∧ e.face = (b.entries.getD j dC).face
          ∧ e.idx = (b.entries.getD j dC).idx := by
  intro e he
  obtain ⟨b, hb, he2⟩ := List.mem_flatMap.mp he
  exact ⟨b, hb, bucketEmits_mem ok nz b e he2⟩

/-- The emissions fill exactly the corner slots, once each. -/
theorem emits_slots_perm (ok : Vec3 → Vec3 → Bool) (nz : Vec3 → Vec3)
    (g : CSG) :
    ((emits ok nz g).map fun e => (e.face, e.idx)).Perm
      ((corners g).map slotOf) := by
  unfold emits
  rw [List.map_flatMap]
  refine (flatMap_perm_congr _ _ _ fun b _ => bucketEmits_slots_perm ok nz b).trans ?_
  rw [← List.map_flatMap]
  exact (buildMap_flatMap_perm (corners g)).map _

/-- One emission per bucket entry. -/
theorem bucketEmits_length (ok : Vec3 → Vec3 → Bool) (nz : Vec3 → Vec3)
    (b : Bucket) :
    (bucketEmits ok nz b).length = b.entries.length := by
  have := (bucketEmits_slots_perm ok nz b).length_eq
  simpa using this

/-- One emission (hence one output vertex) per corner instance. -/
theorem emits_length (ok : Vec3 → Vec3 → Bool) (nz : Vec3 → Vec3) (g : CSG) :
    (emits ok nz g).length = (corners g).length := by
  have := (emits_slots_perm ok nz g).length_eq
  simpa using this

/-- Three slots per triangle. -/
theorem flatMapTriple_length (L : List ℕ) :
    (L.flatMap fun f => ([(f, 0), (f, 1), (f, 2)] : List (ℕ × ℕ))).length
      = 3 * L.length := by
  induction L with
  | nil => rfl
  | cons a L ih =>
      rw [List.flatMap_cons, List.length_append, ih, List.length_cons]
      simp
      omega

/-- Three corner instances per triangle. -/
theorem corners_length (g : CSG) :
    (corners g).length = 3 * (triangles g).length := by
  have h := congrArg List.length (corners_map_slot g)
  rw [List.length_map, flatMapTriple_length, List.length_range] at h
  exact h

/-! ## Resolving one corner: its output index and output data -/

/-- Reading component `i` of chunk `m` of a flattened 3-float-per-emit
buffer. -/
theorem flatMap3_getD_emit (f : Emit → List ℚ) (hf : ∀ e, (f e).length = 3)
    (es : List Emit) (m i : ℕ) (hm : m < es.length) (hi : i < 3) :
    (es.flatMap f).getD (3 * m + i) 0 = (f (es.getD m dE)).getD i 0 := by
  rw [List.flatMap_def]
  rw [flatten_length3_getD 0 _
    (by intro x hx; obtain ⟨e, _, rfl⟩ := List.mem_map.mp hx; exact hf e) m i
    (by simpa using hm) hi]
  congr 1
  rw [List.getD_eq_getElem?_getD, List.getElem?_map, List.getD_eq_getElem?_getD]
  cases hx : es[m]? with
  | none => exact absurd hx (by simp [List.getElem?_eq_none_iff, hm])
  | some e => rfl

/-- Resolution of one corner instance: the export backfills its
triangle-corner slot with an output-vertex number `m` that is in range,
and output vertex `m` carries the corner's bucket-representative
position (equal rounded position) and the corner's own colour. -/
theorem corner_resolution (ok : Vec3 → Vec3 → Bool) (nz : Vec3 → Vec3)
    (g : CSG) (c : Corner) (hc : c ∈ corners g) :
    ∃ m, m < (emits ok nz g).length
      ∧ (exportThreeGeometry ok nz g).index.getD (3 * c.face + c.idx) none
          = some m
      ∧ ((emits ok nz g).getD m dE).face = c.face
      ∧ ((emits ok nz g).getD m dE).idx = c.idx
      ∧ weldKey ((emits ok nz g).getD m dE).pos = weldKey c.pos
      ∧ ((emits ok nz g).getD m dE).col = c.colour
      ∧ outPos (exportThreeGeometry ok nz g) m
          = ((emits ok nz g).getD m dE).pos
      ∧ ∀ cb, (exportThreeGeometry ok nz g).color = some cb →
          colourTriple cb m = c.colour := by
  obtain ⟨hcface, hcidx⟩ := corner_bounds g c hc
  -- locate the unique emission that fills this corner's slot
  have hslot : (c.face, c.idx) ∈ (emits ok nz g).map fun e => (e.face, e.idx) := by
    refine ((emits_slots_perm ok nz g).mem_iff).mpr ?_
    exact List.mem_map_of_mem slotOf hc
  obtain ⟨e, he, hse⟩ := List.mem_map.mp hslot
  obtain ⟨es1, es2, hsplit⟩ := List.append_of_mem he
  have hef : e.face = c.face := congrArg Prod.fst hse
  have hei : e.idx = c.idx := congrArg Prod.snd hse
  have hnodup : ((emits ok nz g).map fun e => (e.face, e.idx)).Nodup :=
    ((emits_slots_perm ok nz g).nodup_iff).mpr (corners_slot_nodup g)
  have hnotin2 : (e.face, e.idx) ∉ es2.map fun e => (e.face, e.idx) := by
    rw [hsplit, List.map_append, List.map_cons] at hnodup
    exact (List.nodup_cons.mp (List.nodup_append.mp hnodup).2.1).1
  -- the data carried by this emission
  obtain ⟨b, hb, hpos, j, hj, hcol, hface, hidx⟩ := emits_mem ok nz g e he
  have hentry : b.entries.getD j dC ∈ b.entries := by
    rw [List.getD_eq_getElem _ _ hj]
    exact List.getElem_mem _
  have hentryCorners : b.entries.getD j dC ∈ corners g := by
    refine (buildMap_flatMap_perm (corners g)).mem_iff.mp ?_
    exact List.mem_flatMap_of_mem hb hentry
  have hentryc : b.entries.getD j dC = c :=
    List.inj_on_of_nodup_map (corners_slot_nodup g) hentryCorners hc
      (by show ((b.entries.getD j dC).face, (b.entries.getD j dC).idx)
            = (c.face, c.idx)
          rw [← hface, ← hidx, hef, hei])
  obtain ⟨hbinv1, hbinv2⟩ := buildMap_inv (corners g) b hb
  have hkey : weldKey e.pos = weldKey c.pos := by
    rw [hpos, hbinv2, ← hbinv1 _ hentry, hentryc]
  have hcolc : e.col = c.colour := by
    rw [hcol, hentryc]
  -- position in the emission sequence
  have hm : (emits ok nz g).getD es1.length dE = e := by
    rw [hsplit, List.getD_eq_getElem?_getD, List.getElem?_append_right le_rfl]
    simp
  have hmlt : es1.length < (emits ok nz g).length := by
    rw [hsplit, List.length_append, List.length_cons]
    omega
  -- the final face records
  have hst0len : ([] : List ℚ).length = 3 * 0 := rfl
  have hfaces : ((emits ok nz g).foldl emitStep
        ⟨[], [], [], List.replicate (triangles g).length [none, none, none]⟩).faces
      = applyW (List.replicate (triangles g).length [none, none, none])
          (writesFrom 0 (emits ok nz g)) :=
    foldl_emitStep_faces (emits ok nz g) _ 0 hst0len
  have hreplen : (List.replicate (triangles g).length
      ([none, none, none] : Face)).length = (triangles g).length := by
    simp
  have hrepin : ∀ f, f < (triangles g).length →
      ((List.replicate (triangles g).length
        ([none, none, none] : Face)).getD f []).length = 3 := by
    intro f hf
    rw [List.getD_eq_getElem?_getD, List.getElem?_replicate_of_lt hf]
    rfl
  have hfin3 : ∀ x ∈ applyW (List.replicate (triangles g).length
      [none, none, none]) (writesFrom 0 (emits ok nz g)), x.length = 3 := by
    intro x hx
    obtain ⟨i, hi, hxi⟩ := List.mem_iff_getElem.mp hx
    have hilen : i < (triangles g).length := by
      have := applyW_length (writesFrom 0 (emits ok nz g))
        (List.replicate (triangles g).length [none, none, none])
      rw [this, hreplen] at hi
      exact hi
    rw [← hxi, ← List.getD_eq_getElem _ [] hi, applyW_inner_length]
    exact hrepin i hilen
  -- the slot lookup through the flattened index buffer
  have hlookup : (exportThreeGeometry ok nz g).index.getD
        (3 * c.face + c.idx) none
      = slotGet (applyW (List.replicate (triangles g).length [none, none, none])
          (writesFrom 0 (emits ok nz g))) c.face c.idx := by
    show (((emits ok nz g).foldl emitStep
        ⟨[], [], [], List.replicate (triangles g).length
          [none, none, none]⟩).faces.flatMap id).getD (3 * c.face + c.idx) none
      = _
    rw [hfaces, List.flatMap_id]
    rw [flatten_length3_getD none _ hfin3 c.face c.idx
      (by rw [applyW_length, hreplen]; exact hcface) hcidx]
    rfl
  have hwrite : slotGet (applyW (List.replicate (triangles g).length
        [none, none, none]) (writesFrom 0 (emits ok nz g))) c.face c.idx
      = some es1.length := by
    rw [← hef, ← hei, hsplit]
    refine emits_slotGet es1 e es2 _ ?_ ?_ ?_
    · intro e2 he2 ⟨h1, h2⟩
      exact hnotin2 (List.mem_map.mpr ⟨e2, he2, by rw [h1, h2]⟩)
    · rw [hreplen, hef]
      exact hcface
    · rw [hrepin e.face (by rw [hef]; exact hcface), hei]
      exact hcidx
  -- the output position of output vertex m
  have hposition : (exportThreeGeometry ok nz g).position
      = (emits ok nz g).flatMap fun e => [e.pos.x, e.pos.y, e.pos.z] := by
    show ((emits ok nz g).foldl emitStep
        ⟨[], [], [], List.replicate (triangles g).length
          [none, none, none]⟩).vertices = _
    rw [foldl_emitStep_vertices]
    rfl
  have houtpos : outPos (exportThreeGeometry ok nz g) es1.length
      = ((emits ok nz g).getD es1.length dE).pos := by
    unfold outPos
    rw [hposition]
    have h0 := flatMap3_getD_emit (fun e => [e.pos.x, e.pos.y, e.pos.z])
      (fun _ => rfl) (emits ok nz g) es1.length 0 hmlt (by omega)
    have h1 := flatMap3_getD_emit (fun e => [e.pos.x, e.pos.y, e.pos.z])
      (fun _ => rfl) (emits ok nz g) es1.length 1 hmlt (by omega)
    have h2 := flatMap3_getD_emit (fun e => [e.pos.x, e.pos.y, e.pos.z])
      (fun _ => rfl) (emits ok nz g) es1.length 2 hmlt (by omega)
    have hpe : ((emits ok nz g).getD es1.length dE).pos
        = ⟨((emits ok nz g).getD es1.length dE).pos.x,
           ((emits ok nz g).getD es1.length dE).pos.y,
           ((emits ok nz g).getD es1.length dE).pos.z⟩ := rfl
    rw [hpe]
    simp only [Vec3.mk.injEq]
    exact ⟨h0, h1, h2⟩
  -- the output colour of output vertex m
  have hcolour : ∀ cb, (exportThreeGeometry ok nz g).color = some cb →
      colourTriple cb es1.length = c.colour := by
    intro cb hcb
    have hcolors : cb = (emits ok nz g).flatMap
        fun e => [e.col.r, e.col.g, e.col.b] := by
      by_cases hcu : colorsUsed g = true
      · have : (exportThreeGeometry ok nz g).color
            = some (((emits ok nz g).foldl emitStep
              ⟨[], [], [], List.replicate (triangles g).length
                [none, none, none]⟩).colors) := by
          show (if colorsUsed g then some _ else none) = _
          rw [if_pos hcu]
        rw [this] at hcb
        have hcb2 := Option.some.inj hcb
        rw [← hcb2, foldl_emitStep_colors]
        rfl
      · have : (exportThreeGeometry ok nz g).color = none := by
          show (if colorsUsed g then some _ else none) = _
          rw [if_neg hcu]
        rw [this] at hcb
        exact absurd hcb (by simp)
    subst hcolors
    unfold colourTriple
    have hcomp : ∀ i, i < 3 →
        ((emits ok nz g).flatMap fun e => [e.col.r, e.col.g, e.col.b]).getD
            (3 * es1.length + i) 0
          = ([c.colour.r, c.colour.g, c.colour.b] : List ℚ).getD i 0 := by
      intro i hi
      rw [flatMap3_getD_emit (fun e => [e.col.r, e.col.g, e.col.b])
        (fun _ => rfl) _ _ i hmlt hi, hm]
      show ([e.col.r, e.col.g, e.col.b] : List ℚ).getD i 0 = _
      rw [hcolc]
    have hce : c.colour = ⟨c.colour.r, c.colour.g, c.colour.b⟩ := rfl
    rw [hce]
    simp only [Color3.mk.injEq]
    exact ⟨hcomp 0 (by omega), hcomp 1 (by omega), hcomp 2 (by omega)⟩
  refine ⟨es1.length, hmlt, ?_, ?_, ?_, ?_, ?_, houtpos, hcolour⟩
  · rw [hlookup, hwrite]
  · rw [hm, hef]
  · rw [hm, hei]
  · rw [hm, hkey]
  · rw [hm, hcolc]

/-! ## Per-polygon triangle slices and remaining counting lemmas -/

/-- A polygon with `n` vertices fans into `n − 2` triangles. -/
theorem polyTriangles_length (p : Polygon) :
    (polyTriangles p).length = p.vertices.length - 2 := by
  simp [polyTriangles]

/-- Triangle `k` of a polygon's fan uses corners `0`, `k+1`, `k+2` and
inherits the plane normal and the shared colour. -/
theorem polyTriangles_getD (p : Polygon) (k : ℕ)
    (hk : k < p.vertices.length - 2) :
    (polyTriangles p).getD k dT
      = ⟨(p.vertices.getD 0 dV).pos, (p.vertices.getD (k + 1) dV).pos,
          (p.vertices.getD (k + 2) dV).pos, p.plane.normal, polyColour p⟩ := by
  unfold polyTriangles
  rw [List.getD_eq_getElem?_getD, List.getElem?_map, List.getElem?_range hk]
  rfl

/-- Every triangle of a polygon's fan carries the polygon's plane
normal and colour. -/
theorem polyTriangles_data (p : Polygon) :
    ∀ t ∈ polyTriangles p, t.normal = p.plane.normal ∧ t.colour = polyColour p := by
  intro t ht
  obtain ⟨k, _, rfl⟩ := List.mem_map.mp ht
  exact ⟨rfl, rfl⟩

/-- Each corner position of a fan triangle is one of the polygon's own
vertex positions. -/
theorem polyTriangles_pos (p : Polygon) (hp : 3 ≤ p.vertices.length) :
    ∀ t ∈ polyTriangles p, ∀ s : ℕ,
      ∃ w ∈ p.vertices, triPos t s = w.pos := by
  intro t ht s
  obtain ⟨k, hk, rfl⟩ := List.mem_map.mp ht
  rw [List.mem_range] at hk
  have hmem : ∀ i, i < p.vertices.length → p.vertices.getD i dV ∈ p.vertices := by
    intro i hi
    rw [List.getD_eq_getElem _ _ hi]
    exact List.getElem_mem _
  match s with
  | 0 => exact ⟨p.vertices.getD 0 dV, hmem 0 (by omega), rfl⟩
  | 1 => exact ⟨p.vertices.getD (k + 1) dV, hmem (k + 1) (by omega), rfl⟩
  | n + 2 => exact ⟨p.vertices.getD (k + 2) dV, hmem (k + 2) (by omega), rfl⟩

/-- Indexing into the concatenated triangle list: polygon `pi`'s
triangle `k` sits at global face ordinal `faceOffset + k`. -/
theorem flatMap_polyTriangles_getD (L : List Polygon) :
    ∀ (pi : ℕ) (p : Polygon), L[pi]? = some p →
      ∀ k, k < (polyTriangles p).length →
        ((L.take pi).map fun q => (polyTriangles q).length).sum + k
            < (L.flatMap polyTriangles).length
          ∧ (L.flatMap polyTriangles).getD
              (((L.take pi).map fun q => (polyTriangles q).length).sum + k) dT
            = (polyTriangles p).getD k dT := by
  induction L with
  | nil =>
      intro pi p hp
      simp at hp
  | cons q L ih =>
      intro pi p hp k hk
      cases pi with
      | zero =>
          have hq : q = p := by
            rw [List.getElem?_cons_zero] at hp
            exact Option.some.inj hp
          subst hq
          simp only [List.take_zero, List.map_nil, List.sum_nil, Nat.zero_add]
          constructor
          · rw [List.flatMap_cons, List.length_append]
            omega
          · rw [List.flatMap_cons, List.getD_eq_getElem?_getD,
              List.getElem?_append_left hk, ← List.getD_eq_getElem?_getD]
      | succ pi =>
          have hp' : L[pi]? = some p := by simpa using hp
          obtain ⟨ih1, ih2⟩ := ih pi p hp' k hk
          rw [List.take_succ_cons, List.map_cons, List.sum_cons]
          constructor
          · rw [List.flatMap_cons, List.length_append]
            omega
          · rw [List.flatMap_cons, List.getD_eq_getElem?_getD,
              List.getElem?_append_right (by omega), ← List.getD_eq_getElem?_getD]
            have harg : (polyTriangles q).length
                + ((L.take pi).map fun q => (polyTriangles q).length).sum + k
                - (polyTriangles q).length
                = ((L.take pi).map fun q => (polyTriangles q).length).sum + k := by
              omega
            rw [harg]
            exact ih2

/-- The face ordinals of polygon `pi`'s fan are in range and denote its
own triangles. -/
theorem triangles_of_polygon (g : CSG) (pi : ℕ) (p : Polygon)
    (hp : g.polygons[pi]? = some p) (k : ℕ)
    (hk : k < (polyTriangles p).length) :
    faceOffset g pi + k < (triangles g).length
      ∧ (triangles g).getD (faceOffset g pi + k) dT
          = (polyTriangles p).getD k dT :=
  flatMap_polyTriangles_getD g.polygons pi p hp k hk

/-- A corner instance exists for every slot of every triangle, carrying
that triangle's corner position (by slot index) and colour. -/
theorem corner_at_slot (g : CSG) (f s : ℕ) (hf : f < (triangles g).length)
    (hs : s < 3) :
    ∃ c ∈ corners g, c.face = f ∧ c.idx = s
      ∧ c.pos = triPos ((triangles g).getD f dT) s
      ∧ c.colour = ((triangles g).getD f dT).colour := by
  have h := triCorners_mem_corners g f hf
  match s, hs with
  | 0, _ =>
      refine ⟨⟨((triangles g).getD f dT).a, ((triangles g).getD f dT).normal,
        ((triangles g).getD f dT).colour, f, 0⟩, h _ ?_, rfl, rfl, rfl, rfl⟩
      exact List.mem_cons_self _ _
  | 1, _ =>
      refine ⟨⟨((triangles g).getD f dT).b, ((triangles g).getD f dT).normal,
        ((triangles g).getD f dT).colour, f, 1⟩, h _ ?_, rfl, rfl, rfl, rfl⟩
      exact List.mem_cons_of_mem _ (List.mem_cons_self _ _)
  | 2, _ =>
      refine ⟨⟨((triangles g).getD f dT).c, ((triangles g).getD f dT).normal,
        ((triangles g).getD f dT).colour, f, 2⟩, h _ ?_, rfl, rfl, rfl, rfl⟩
      exact List.mem_cons_of_mem _ (List.mem_cons_of_mem _ (List.mem_cons_self _ _))

/-- `colorsUsed` is set exactly when some polygon declares a colour. -/
theorem colorsUsed_iff (g : CSG) :
    colorsUsed g = true ↔ ∃ p, p ∈ g.polygons ∧ p.shared.color.isSome = true := by
  unfold colorsUsed
  exact List.any_eq_true

/-- Every corner's colour is some polygon's colour (the shared colour,
or white when the polygon has none). -/
theorem corner_colour_poly (g : CSG) :
    ∀ c ∈ corners g, ∃ p ∈ g.polygons, c.colour = polyColour p := by
  intro c hc
  obtain ⟨_, hcol, _, hmem⟩ := corner_triangle g c hc
  obtain ⟨p, hp, ht⟩ := List.mem_flatMap.mp hmem
  exact ⟨p, hp, by rw [hcol, (polyTriangles_data p _ ht).2]⟩

/-- A flattened 3-floats-per-emission buffer has three entries per
emission. -/
theorem flatMap3_length (f : Emit → List ℚ) (hf : ∀ e, (f e).length = 3)
    (es : List Emit) : (es.flatMap f).length = 3 * es.length := by
  induction es with
  | nil => rfl
  | cons e es ih =>
      rw [List.flatMap_cons, List.length_append, hf, ih, List.length_cons]
      omega

/-- A list of length-3 records flattens to three entries per record. -/
theorem flatten3_length {β : Type} (L : List (List β))
    (h3 : ∀ x ∈ L, x.length = 3) : L.flatten.length = 3 * L.length := by
  induction L with
  | nil => rfl
  | cons x L ih =>
      rw [List.flatten_cons, List.length_append,
        h3 x (List.mem_cons_self _ _),
        ih fun y hy => h3 y (List.mem_cons_of_mem _ hy), List.length_cons]
      omega

/-- The position buffer holds one 3-float vertex per emission. -/
theorem export_position_length (ok : Vec3 → Vec3 → Bool) (nz : Vec3 → Vec3)
    (g : CSG) :
    (exportThreeGeometry ok nz g).position.length = 3 * (emits ok nz g).length := by
  show ((emits ok nz g).foldl emitStep
      ⟨[], [], [], List.replicate (triangles g).length
        [none, none, none]⟩).vertices.length = _
  rw [foldl_emitStep_vertices]
  show ((emits ok nz g).flatMap fun e => [e.pos.x, e.pos.y, e.pos.z]).length = _
  exact flatMap3_length (fun e => [e.pos.x, e.pos.y, e.pos.z]) (fun _ => rfl) _

/-- The normal buffer holds one 3-float normal per emission. -/
theorem export_normal_length (ok : Vec3 → Vec3 → Bool) (nz : Vec3 → Vec3)
    (g : CSG) :
    (exportThreeGeometry ok nz g).normal.length = 3 * (emits ok nz g).length := by
  show ((emits ok nz g).foldl emitStep
      ⟨[], [], [], List.replicate (triangles g).length
        [none, none, none]⟩).normalVecs.length = _
  rw [foldl_emitStep_normals]
  show ((emits ok nz g).flatMap fun e => [e.nrm.x, e.nrm.y, e.nrm.z]).length = _
  exact flatMap3_length (fun e => [e.nrm.x, e.nrm.y, e.nrm.z]) (fun _ => rfl) _

/-- The colour buffer, when present, holds one 3-float colour per
emission. -/
theorem export_color_length (ok : Vec3 → Vec3 → Bool) (nz : Vec3 → Vec3)
    (g : CSG) (cb : List ℚ)
    (hcb : (exportThreeGeometry ok nz g).color = some cb) :
    cb.length = 3 * (emits ok nz g).length := by
  have hcb2 : cb = ((emits ok nz g).foldl emitStep
      ⟨[], [], [], List.replicate (triangles g).length
        [none, none, none]⟩).colors := by
    by_cases hcu : colorsUsed g = true
    · have : (exportThreeGeometry ok nz g).color
          = some (((emits ok nz g).foldl emitStep
            ⟨[], [], [], List.replicate (triangles g).length
              [none, none, none]⟩).colors) := by
        show (if colorsUsed g then some _ else none) = _
        rw [if_pos hcu]
      rw [this] at hcb
      exact (Option.some.inj hcb).symm
    · have : (exportThreeGeometry ok nz g).color = none := by
        show (if colorsUsed g then some _ else none) = _
        rw [if_neg hcu]
      rw [this] at hcb
      exact absurd hcb (by simp)
  rw [hcb2, foldl_emitStep_colors]
  show ((emits ok nz g).flatMap fun e => [e.col.r, e.col.g, e.col.b]).length = _
  exact flatMap3_length (fun e => [e.col.r, e.col.g, e.col.b]) (fun _ => rfl) _

/-- The index buffer holds three entries per triangle, triangle-major
in creation order. -/
theorem export_index_length (ok : Vec3 → Vec3 → Bool) (nz : Vec3 → Vec3)
    (g : CSG) :
    (exportThreeGeometry ok nz g).index.length = 3 * (triangles g).length := by
  show (((emits ok nz g).foldl emitStep
      ⟨[], [], [], List.replicate (triangles g).length
        [none, none, none]⟩).faces.flatMap id).length = _
  rw [foldl_emitStep_faces (emits ok nz g)
    ⟨[], [], [], List.replicate (triangles g).length [none, none, none]⟩ 0 rfl,
    List.flatMap_id]
  have h3 : ∀ x ∈ applyW (List.replicate (triangles g).length
      [none, none, none]) (writesFrom 0 (emits ok nz g)), x.length = 3 := by
    intro x hx
    obtain ⟨i, hi, hxi⟩ := List.mem_iff_getElem.mp hx
    have hilen : i < (triangles g).length := by
      have hl := applyW_length (writesFrom 0 (emits ok nz g))
        (List.replicate (triangles g).length [none, none, none])
      rw [hl] at hi
      simpa using hi
    rw [← hxi, ← List.getD_eq_getElem _ [] hi, applyW_inner_length]
    rw [List.getD_eq_getElem?_getD, List.getElem?_replicate_of_lt hilen]
    rfl
  rw [flatten3_length _ h3, applyW_length]
  simp

/-- Distinct corner instances are backfilled with distinct output
vertex numbers (the export never shares an output vertex). -/
theorem corner_index_inj (ok : Vec3 → Vec3 → Bool) (nz : Vec3 → Vec3)
    (g : CSG) (c1 c2 : Corner) (hc1 : c1 ∈ corners g) (hc2 : c2 ∈ corners g)
    (hne : c1 ≠ c2) :
    ∀ m1 m2,
      (exportThreeGeometry ok nz g).index.getD (3 * c1.face + c1.idx) none
        = some m1 →
      (exportThreeGeometry ok nz g).index.getD (3 * c2.face + c2.idx) none
        = some m2 →
      m1 ≠ m2 := by
  intro m1 m2 h1 h2 heq
  obtain ⟨m1', _, hl1, hf1, hi1, _⟩ := corner_resolution ok nz g c1 hc1
  obtain ⟨m2', _, hl2, hf2, hi2, _⟩ := corner_resolution ok nz g c2 hc2
  rw [hl1] at h1
  rw [hl2] at h2
  have e1 : m1' = m1 := Option.some.inj h1
  have e2 : m2' = m2 := Option.some.inj h2
  subst e1
  subst e2
  subst heq
  apply hne
  refine List.inj_on_of_nodup_map (corners_slot_nodup g) hc1 hc2 ?_
  show (c1.face, c1.idx) = (c2.face, c2.idx)
  rw [← hf1, ← hi1, ← hf2, ← hi2]

/-! # Claims -/

/-- C1 (counterexample): the unit square given as two coplanar
triangles sharing a diagonal does NOT export to 4 output vertices
(12 position floats): it exports to 6 output vertices (18 position
floats), and the two corner instances of each welded/smoothed pair
receive distinct output vertex indices (the index buffer references 6
distinct vertices). -/
theorem C1_counterexample :
    (exportThreeGeometry okEq nzC squareCSG).position.length = 18
      ∧ (exportThreeGeometry okEq nzC squareCSG).position.length ≠ 12
      ∧ (exportThreeGeometry okEq nzC squareCSG).index
          = [some 0, some 2, some 3, some 1, some 4, some 5] := by
  refine ⟨by decide, by decide, by decide⟩

/-- C1 (amended): the output vertex count equals the total number of
corner instances — three per triangle — not the number of smoothing
groups; corner instances in one smoothing group share the averaged
normal but each receives its own output vertex index.  In particular
the unit square exports to 6 output vertices, 2 triangles and an index
buffer of length 6 referencing 6 distinct vertices. -/
theorem C1_amended :
    (∀ (ok : Vec3 → Vec3 → Bool) (nz : Vec3 → Vec3) (g : CSG),
        (exportThreeGeometry ok nz g).position.length = 3 * (corners g).length
          ∧ (corners g).length = 3 * (triangles g).length)
      ∧ (exportThreeGeometry okEq nzC squareCSG).position.length = 18
      ∧ (triangles squareCSG).length = 2
      ∧ (exportThreeGeometry okEq nzC squareCSG).index
          = [some 0, some 2, some 3, some 1, some 4, some 5] := by
  refine ⟨fun ok nz g => ⟨?_, corners_length g⟩, by decide, by decide, by decide⟩
  rw [export_position_length, emits_length]

/-- C2: every polygon with `n ≥ 3` vertices is fanned from vertex 0
into exactly `n − 2` triangles, triangle `k` using corners
`(0, k+1, k+2)`; each fan triangle inherits the polygon's plane normal
and shared colour, occupies face ordinal `faceOffset + k` of the mesh,
and every backfilled corner slot of those triangles references an
output vertex whose position has the same weld key (agrees to the weld
precision) as one of the polygon's own input vertex positions. -/
theorem C2_triangulation (ok : Vec3 → Vec3 → Bool) (nz : Vec3 → Vec3)
    (g : CSG) (pi : ℕ) (p : Polygon) (hp : g.polygons[pi]? = some p)
    (hn : 3 ≤ p.vertices.length) :
    (polyTriangles p).length = p.vertices.length - 2
      ∧ (∀ k, k < p.vertices.length - 2 →
          (polyTriangles p).getD k dT
            = ⟨(p.vertices.getD 0 dV).pos, (p.vertices.getD (k + 1) dV).pos,
                (p.vertices.getD (k + 2) dV).pos, p.plane.normal, polyColour p⟩)
      ∧ (∀ k, k < p.vertices.length - 2 →
          (triangles g).getD (faceOffset g pi + k) dT = (polyTriangles p).getD k dT)
      ∧ (∀ k, k < p.vertices.length - 2 → ∀ s, s < 3 →
          ∃ m, (exportThreeGeometry ok nz g).index.getD
              (3 * (faceOffset g pi + k) + s) none = some m
            ∧ ∃ w ∈ p.vertices,
                weldKey (outPos (exportThreeGeometry ok nz g) m)
                  = weldKey w.pos) := by
  have hlen : (polyTriangles p).length = p.vertices.length - 2 :=
    polyTriangles_length p
  refine ⟨hlen, fun k hk => polyTriangles_getD p k hk, ?_, ?_⟩
  · intro k hk
    exact (triangles_of_polygon g pi p hp k (by rw [hlen]; exact hk)).2
  · intro k hk s hs
    obtain ⟨hflt, hfeq⟩ := triangles_of_polygon g pi p hp k (by rw [hlen]; exact hk)
    obtain ⟨c, hc, hcf, hci, hcpos, _⟩ :=
      corner_at_slot g (faceOffset g pi + k) s hflt hs
    obtain ⟨m, _, hlook, _, _, hwk, _, houtp, _⟩ :=
      corner_resolution ok nz g c hc
    refine ⟨m, by rw [← hcf, ← hci]; exact hlook, ?_⟩
    have ht : (triangles g).getD (faceOffset g pi + k) dT ∈ polyTriangles p := by
      rw [hfeq, List.getD_eq_getElem _ _ (by rw [hlen]; exact hk)]
      exact List.getElem_mem _
    obtain ⟨w, hw, hwpos⟩ := polyTriangles_pos p hn _ ht s
    refine ⟨w, hw, ?_⟩
    rw [houtp, hwk, hcpos, hwpos]

/-- C2 witness: the first polygon of the unit square. -/
theorem C2_witness :
    squareCSG.polygons[0]? = some sqP0
      ∧ 3 ≤ sqP0.vertices.length
      ∧ ((polyTriangles sqP0).length = sqP0.vertices.length - 2
        ∧ (∀ k, k < sqP0.vertices.length - 2 →
            (polyTriangles sqP0).getD k dT
              = ⟨(sqP0.vertices.getD 0 dV).pos,
                  (sqP0.vertices.getD (k + 1) dV).pos,
                  (sqP0.vertices.getD (k + 2) dV).pos, sqP0.plane.normal,
                  polyColour sqP0⟩)
        ∧ (∀ k, k < sqP0.vertices.length - 2 →
            (triangles squareCSG).getD (faceOffset squareCSG 0 + k) dT
              = (polyTriangles sqP0).getD k dT)
        ∧ (∀ k, k < sqP0.vertices.length - 2 → ∀ s, s < 3 →
            ∃ m, (exportThreeGeometry okEq nzC squareCSG).index.getD
                (3 * (faceOffset squareCSG 0 + k) + s) none = some m
              ∧ ∃ w ∈ sqP0.vertices,
                  weldKey (outPos (exportThreeGeometry okEq nzC squareCSG) m)
                    = weldKey w.pos)) :=
  ⟨by decide, by decide,
    C2_triangulation okEq nzC squareCSG 0 sqP0 (by decide) (by decide)⟩

/-- C3: within one bucket, the imperative flag-array double loop
computes exactly the specification's greedy clustering — the lowest
still-ungrouped index seeds each group and later still-ungrouped
indices join when the test against the seed's normal (only) passes —
and the emitted normal of every group member is the renormalised
vector sum of the group's member normals. -/
theorem C3_greedy_grouping (ok : Vec3 → Vec3 → Bool) (nz : Vec3 → Vec3)
    (b : Bucket) :
    groupNormals ok (b.entries.map (·.normal))
        = greedySpec ok (b.entries.map (·.normal))
            (List.range (b.entries.map (·.normal)).length)
      ∧ (bucketEmits ok nz b).map (·.nrm)
          = (groupNormals ok (b.entries.map (·.normal))).flatMap
              fun grp => grp.map fun _ =>
                nz (groupSum (b.entries.map (·.normal)) grp) :=
  ⟨groupNormals_eq_greedySpec ok _, bucketEmits_normals ok nz b⟩

/-- C4: two corner instances share a weld bucket iff their coordinates
rendered to 4 fixed fractional digits (sign and rounded scaled
magnitude) are identical in all three components — exact equality of
the rendered tuple, not an epsilon comparison — and corners with
different rendered keys are backfilled with different output vertex
indices. -/
theorem C4_weldkey (ok : Vec3 → Vec3 → Bool) (nz : Vec3 → Vec3) (g : CSG)
    (c1 c2 : Corner) (hc1 : c1 ∈ corners g) (hc2 : c2 ∈ corners g) :
    ((∃ b ∈ buildMap (corners g), c1 ∈ b.entries ∧ c2 ∈ b.entries)
        ↔ weldKey c1.pos = weldKey c2.pos)
      ∧ (weldKey c1.pos = weldKey c2.pos
          ↔ (toFixed4 c1.pos.x = toFixed4 c2.pos.x
              ∧ toFixed4 c1.pos.y = toFixed4 c2.pos.y
              ∧ toFixed4 c1.pos.z = toFixed4 c2.pos.z))
      ∧ (weldKey c1.pos ≠ weldKey c2.pos →
          ∀ m1 m2,
            (exportThreeGeometry ok nz g).index.getD
              (3 * c1.face + c1.idx) none = some m1 →
            (exportThreeGeometry ok nz g).index.getD
              (3 * c2.face + c2.idx) none = some m2 →
            m1 ≠ m2) := by
  have hbucket : ∀ c : Corner, c ∈ corners g →
      ∃ b ∈ buildMap (corners g), c ∈ b.entries := by
    intro c hc
    have : c ∈ (buildMap (corners g)).flatMap (·.entries) :=
      (buildMap_flatMap_perm (corners g)).mem_iff.mpr hc
    exact List.mem_flatMap.mp this
  refine ⟨⟨?_, ?_⟩, ?_, ?_⟩
  · rintro ⟨b, hb, h1, h2⟩
    obtain ⟨hinv1, _⟩ := buildMap_inv (corners g) b hb
    rw [hinv1 c1 h1, hinv1 c2 h2]
  · intro hkey
    obtain ⟨b1, hb1, h1⟩ := hbucket c1 hc1
    obtain ⟨b2, hb2, h2⟩ := hbucket c2 hc2
    have hk1 := (buildMap_inv (corners g) b1 hb1).1 c1 h1
    have hk2 := (buildMap_inv (corners g) b2 hb2).1 c2 h2
    have hbeq : b1 = b2 := by
      refine List.inj_on_of_nodup_map (buildMap_keys_nodup (corners g)) hb1 hb2 ?_
      rw [← hk1, ← hk2, hkey]
    subst hbeq
    exact ⟨b1, hb1, h1, h2⟩
  · unfold weldKey
    simp [Prod.ext_iff]
  · intro hkey
    have hne : c1 ≠ c2 := by
      intro h
      rw [h] at hkey
      exact hkey rfl
    exact corner_index_inj ok nz g c1 c2 hc1 hc2 hne

/-- C4 witness: two corners of the unit square with different rounded
positions. -/
theorem C4_witness :
    sqC0 ∈ corners squareCSG
      ∧ sqC1 ∈ corners squareCSG
      ∧ (((∃ b ∈ buildMap (corners squareCSG),
            sqC0 ∈ b.entries ∧ sqC1 ∈ b.entries)
          ↔ weldKey sqC0.pos = weldKey sqC1.pos)
        ∧ (weldKey sqC0.pos = weldKey sqC1.pos
            ↔ (toFixed4 sqC0.pos.x = toFixed4 sqC1.pos.x
                ∧ toFixed4 sqC0.pos.y = toFixed4 sqC1.pos.y
                ∧ toFixed4 sqC0.pos.z = toFixed4 sqC1.pos.z))
        ∧ (weldKey sqC0.pos ≠ weldKey sqC1.pos →
            ∀ m1 m2,
              (exportThreeGeometry okEq nzC squareCSG).index.getD
                (3 * sqC0.face + sqC0.idx) none = some m1 →
              (exportThreeGeometry okEq nzC squareCSG).index.getD
                (3 * sqC1.face + sqC1.idx) none = some m2 →
              m1 ≠ m2)) :=
  ⟨by decide, by decide,
    C4_weldkey okEq nzC squareCSG sqC0 sqC1 (by decide) (by decide)⟩

/-- C5 (counterexample): ingestion does NOT reject malformed buffers.
With 4 indices (not a multiple of 3) and 4 vertices of positions, a
mesh of 2 polygons is returned — no error is raised — and the trailing
partial triangle's second corner has entirely `undefined` (here `none`)
coordinates: a silently garbled partial mesh, not a ValidationError. -/
theorem C5_counterexample :
    (importThreeGeometry (some [0, 1, 2, 3])
        [0, 0, 0, 1, 0, 0, 1, 1, 0, 0, 1, 0]).polygons.length = 2
      ∧ ((importThreeGeometry (some [0, 1, 2, 3])
            [0, 0, 0, 1, 0, 0, 1, 1, 0, 0, 1, 0]).polygons.getD 1
              ⟨[]⟩).vertices.getD 1 ⟨none, none, none⟩
          = ⟨none, none, none⟩ := by
  refine ⟨by decide, by decide⟩

/-- C5 (amended): ingestion performs no validation and never fails: an
indexed geometry always yields `⌈indexCount / 3⌉` polygons (a trailing
remainder still produces a polygon whose out-of-range reads are
`undefined`), and a non-indexed geometry always yields
`⌈positionCount / 9⌉` polygons; no error value exists in the
ingestion path. -/
theorem C5_amended (arr : List ℕ) (pos : List ℚ) (harr : arr ≠ []) :
    (importThreeGeometry (some arr) pos).polygons.length = (arr.length + 2) / 3
      ∧ (importThreeGeometry none pos).polygons.length
          = (pos.length + 8) / 9 := by
  constructor
  · unfold importThreeGeometry
    rw [if_pos (by simpa using fun h => harr (List.length_eq_zero.mp h))]
    simp
  · unfold importThreeGeometry
    rw [if_neg (by simp)]
    simp

/-- C5 witness: one stray index. -/
theorem C5_witness :
    ([0] : List ℕ) ≠ []
      ∧ ((importThreeGeometry (some [0]) ([] : List ℚ)).polygons.length
            = (([0] : List ℕ).length + 2) / 3
        ∧ (importThreeGeometry none ([] : List ℚ)).polygons.length
            = (([] : List ℚ).length + 8) / 9) :=
  ⟨by decide, C5_amended [0] [] (by decide)⟩

/-- C6 (counterexample): dispatch of an unsupported operation name does
not report an UnsupportedOperationError: the dynamic method lookup
`firstObject[operation]` yields `undefined`, and calling it throws a
JavaScript TypeError (after the inputs were already converted). -/
theorem C6_counterexample :
    runOperation (fun _ first _ => first) "frobnicate" [squareCSG] []
        = Except.error OperationError.typeError
      ∧ runOperation (fun _ first _ => first) "frobnicate" [squareCSG] []
          ≠ Except.error OperationError.unsupportedOperation := by
  refine ⟨rfl, ?_⟩
  intro h
  rw [show runOperation (fun _ first _ => first) "frobnicate" [squareCSG] []
      = Except.error OperationError.typeError from rfl] at h
  exact absurd (Except.error.inj h) (by decide)

/-- C6 (amended): dispatch validates nothing against any allow-list:
the inputs are converted first, then the name is looked up dynamically
on the receiver mesh; any name that is not a mesh method produces a
TypeError (never an UnsupportedOperationError, which does not exist in
the source), and no mesh is returned. -/
theorem C6_amended (engine : String → CSG → List CSG → CSG)
    (operation : String) (objects : List CSG)
    (colors : List (Option DispatchColor))
    (hop : operation ∉ csgMethodNames) :
    runOperation engine operation objects colors
        = Except.error OperationError.typeError
      ∧ ∀ result, runOperation engine operation objects colors
          ≠ Except.ok result := by
  unfold runOperation
  cases prepareObjects objects colors with
  | nil => exact ⟨rfl, fun result h => Except.noConfusion h⟩
  | cons first rest =>
      show (if operation ∈ csgMethodNames
            then Except.ok (engine operation first rest)
            else Except.error OperationError.typeError)
          = Except.error OperationError.typeError
        ∧ ∀ result, (if operation ∈ csgMethodNames
            then Except.ok (engine operation first rest)
            else Except.error OperationError.typeError) ≠ Except.ok result
      rw [if_neg hop]
      exact ⟨rfl, fun result h => Except.noConfusion h⟩

/-- C6 witness: the unsupported name `frobnicate`. -/
theorem C6_witness :
    "frobnicate" ∉ csgMethodNames
      ∧ (runOperation (fun _ first _ => first) "frobnicate" [squareCSG] []
            = Except.error OperationError.typeError
        ∧ ∀ result, runOperation (fun _ first _ => first) "frobnicate"
            [squareCSG] [] ≠ Except.ok result) :=
  ⟨by decide,
    C6_amended (fun _ first _ => first) "frobnicate" [squareCSG] [] (by decide)⟩

/-- C7: the colour buffer is present iff at least one input polygon
declares a shared colour; when present its length equals the position
buffer's length (3 floats per output vertex); a polygon without an
explicit colour contributes the neutral white `(1,1,1)` to every
corner it touches; the colour stored at every corner's resolved output
vertex is that corner's polygon colour; and every output colour is the
declared colour or white of some input polygon (so coloured and
uncoloured polygons coexist). -/
theorem C7_colors (ok : Vec3 → Vec3 → Bool) (nz : Vec3 → Vec3) (g : CSG) :
    ((exportThreeGeometry ok nz g).color.isSome = true
        ↔ ∃ p, p ∈ g.polygons ∧ p.shared.color.isSome = true)
      ∧ (∀ cb, (exportThreeGeometry ok nz g).color = some cb →
          cb.length = (exportThreeGeometry ok nz g).position.length)
      ∧ (∀ p, p ∈ g.polygons → p.shared.color = none → polyColour p = ⟨1, 1, 1⟩)
      ∧ (∀ c ∈ corners g, ∀ cb,
          (exportThreeGeometry ok nz g).color = some cb →
          ∃ m, (exportThreeGeometry ok nz g).index.getD
              (3 * c.face + c.idx) none = some m
            ∧ colourTriple cb m = c.colour)
      ∧ (∀ c ∈ corners g, ∃ p ∈ g.polygons, c.colour = polyColour p) := by
  refine ⟨?_, ?_, ?_, ?_, corner_colour_poly g⟩
  · have hsome : (exportThreeGeometry ok nz g).color.isSome = colorsUsed g := by
      show (if colorsUsed g then some (((emits ok nz g).foldl emitStep
        ⟨[], [], [], List.replicate (triangles g).length
          [none, none, none]⟩).colors) else none).isSome = colorsUsed g
      by_cases hcu : colorsUsed g = true
      · rw [if_pos hcu, hcu]
        rfl
      · rw [if_neg hcu, Bool.not_eq_true] at *
        rw [hcu]
        rfl
    rw [hsome]
    exact colorsUsed_iff g
  · intro cb hcb
    rw [export_color_length ok nz g cb hcb, export_position_length]
  · intro p _ hnone
    unfold polyColour
    rw [hnone]
  · intro c hc cb hcb
    obtain ⟨m, _, hlook, _, _, _, _, _, hcol⟩ := corner_resolution ok nz g c hc
    exact ⟨m, hlook, hcol cb hcb⟩

/-- C8: export is deterministic — it is a pure function of the mesh
and configuration, so two calls on the same input produce identical
buffers — and the weld buckets are visited in first-insertion order:
the bucket key sequence is exactly the first-occurrence subsequence of
the corner hash sequence, never an unspecified order. -/
theorem C8_determinism (ok : Vec3 → Vec3 → Bool) (nz : Vec3 → Vec3) (g : CSG) :
    exportThreeGeometry ok nz g = exportThreeGeometry ok nz g
      ∧ (buildMap (corners g)).map (·.key)
          = firstOccur ((corners g).map fun c => weldKey c.pos) :=
  ⟨rfl, buildMap_keys (corners g)⟩

/-- C9: the index buffer has exactly 3 entries per triangle in
creation order; every triangle-corner slot is backfilled (`some`) with
an output-vertex number in range of the output vertex buffer; and
within every weld bucket each corner instance is assigned to exactly
one smoothing group (the groups partition the bucket's indices). -/
theorem C9_indices (ok : Vec3 → Vec3 → Bool) (nz : Vec3 → Vec3) (g : CSG) :
    (exportThreeGeometry ok nz g).index.length = 3 * (triangles g).length
      ∧ (∀ f s, f < (triangles g).length → s < 3 →
          ∃ m, (exportThreeGeometry ok nz g).index.getD (3 * f + s) none
              = some m
            ∧ 3 * m < (exportThreeGeometry ok nz g).position.length)
      ∧ ∀ b ∈ buildMap (corners g),
          ((groupNormals ok (b.entries.map (·.normal))).flatten).Perm
            (List.range b.entries.length) := by
  refine ⟨export_index_length ok nz g, ?_, ?_⟩
  · intro f s hf hs
    obtain ⟨c, hc, hcf, hci, _, _⟩ := corner_at_slot g f s hf hs
    obtain ⟨m, hmlt, hlook, _⟩ := corner_resolution ok nz g c hc
    refine ⟨m, by rw [← hcf, ← hci]; exact hlook, ?_⟩
    rw [export_position_length, emits_length]
    rw [emits_length] at hmlt
    omega
  · intro b _
    have := groupNormals_flatten_perm ok (b.entries.map (·.normal))
    rwa [List.length_map] at this

/-- C10: a dispatch colour is applied to the whole converted mesh as
the 4-tuple `[r, g, b, 1]`: the alpha component is always 1, whatever
alpha the supplied colour object carries; every polygon of the
prepared mesh ends up with that shared colour. -/
theorem C10_alpha (objects : List CSG) (colors : List (Option DispatchColor))
    (i : ℕ) (c : DispatchColor) (hi : i < objects.length)
    (hc : colors.getD i none = some c) :
    (prepareObjects objects colors).getD i ⟨[]⟩
        = (objects.getD i ⟨[]⟩).setColor ⟨c.r, c.g, c.b, 1⟩
      ∧ ∀ p ∈ ((prepareObjects objects colors).getD i ⟨[]⟩).polygons,
          p.shared = ⟨some ⟨c.r, c.g, c.b, 1⟩⟩ := by
  have hstep : (prepareObjects objects colors).getD i ⟨[]⟩
      = (objects.getD i ⟨[]⟩).setColor ⟨c.r, c.g, c.b, 1⟩ := by
    unfold prepareObjects
    have hilen : i < objects.enum.length := by simpa using hi
    rw [List.getD_eq_getElem?_getD, List.getElem?_map,
      List.getElem?_eq_getElem hilen, List.getElem_enum]
    simp only [Option.map_some', Option.getD_some]
    rw [hc]
    rw [List.getD_eq_getElem _ _ hi]
  refine ⟨hstep, ?_⟩
  rw [hstep]
  intro p hp
  unfold CSG.setColor at hp
  obtain ⟨q, _, rfl⟩ := List.mem_map.mp hp
  rfl

/-- C10 witness: a dispatch colour carrying alpha 0 is applied with
alpha 1. -/
theorem C10_witness :
    0 < ([squareCSG] : List CSG).length
      ∧ ([some ⟨1, 0, 0, 0⟩] : List (Option DispatchColor)).getD 0 none
          = some ⟨1, 0, 0, 0⟩
      ∧ ((prepareObjects [squareCSG] [some ⟨1, 0, 0, 0⟩]).getD 0 ⟨[]⟩
            = (([squareCSG] : List CSG).getD 0 ⟨[]⟩).setColor ⟨1, 0, 0, 1⟩
        ∧ ∀ p ∈ ((prepareObjects [squareCSG]
              [some ⟨1, 0, 0, 0⟩]).getD 0 ⟨[]⟩).polygons,
            p.shared = ⟨some ⟨1, 0, 0, 1⟩⟩) :=
  ⟨by decide, by decide,
    C10_alpha [squareCSG] [some ⟨1, 0, 0, 0⟩] 0 ⟨1, 0, 0, 0⟩
      (by decide) (by decide)⟩

end ThreeCSG
